import Mathlib

/-!
# Verification of the COVID analysis pipeline

A shallow embedding of the data-handling core of the `covid_analysis`
package (`datacleaner.py`, `datasummary.py`, `dataloader.py`, `scrape.py`).
A pandas `DataFrame` is modelled as a list of column names together with a
list of rows, each row a list of optional cells (`none` models `NaN`).
Pandas / numpy library calls that the source delegates to are modelled by
their documented semantics (pandas >= 1.1.5, per `setup.py`), including
numpy's introsort (`quicksort` kind) which `DataFrame.sort_values` uses by
default.
-/

namespace Covid

/-- A cell value of the dataset: a string or an integer.  Numeric measure
columns (`total_cases`, ...) are integers here; `none` at the `Option Val`
level models pandas `NaN`/missing. -/
inductive Val where
  | str (s : String)
  | int (n : Int)
deriving DecidableEq, Repr

/-- Code-point order on characters (`Char.toNat`), as Python compares the
characters of two strings. -/
def charLt (a b : Char) : Bool :=
  decide (a.toNat < b.toNat)

/-- Python's `str < str`: lexicographic code-point comparison over the
character lists. -/
def strLt : List Char → List Char → Bool
  | [], [] => false
  | [], _ :: _ => true
  | _ :: _, [] => false
  | c :: cs, d :: ds =>
    if charLt c d then true
    else if charLt d c then false
    else strLt cs ds

theorem strLt_irrefl (l : List Char) : strLt l l = false := by
  induction l with
  | nil => rfl
  | cons c cs ih =>
    rw [strLt, if_neg, if_neg]
    · exact ih
    · simp [charLt]
    · simp [charLt]

theorem charLt_eq {x y : Char} (h1 : charLt x y = false) (h2 : charLt y x = false) :
    x = y := by
  apply Char.ext
  apply UInt32.ext
  simp only [charLt, decide_eq_false_iff_not, not_lt] at h1 h2
  show x.toNat = y.toNat
  omega

theorem bool_eq_false {b : Bool} (h : ¬b = true) : b = false := by
  cases b
  · rfl
  · exact absurd rfl h

theorem strLt_trans : ∀ (a b c : List Char), strLt a b = true → strLt b c = true →
    strLt a c = true
  | [], [], _, h1, _ => by simp [strLt] at h1
  | [], _ :: _, [], _, h2 => by simp [strLt] at h2
  | [], _ :: _, _ :: _, _, _ => rfl
  | _ :: _, [], _, h1, _ => by simp [strLt] at h1
  | _ :: _, _ :: _, [], _, h2 => by simp [strLt] at h2
  | x :: xs, y :: ys, z :: zs, h1, h2 => by
    rw [strLt] at h1 h2 ⊢
    by_cases hxy : charLt x y = true
    · by_cases hyz : charLt y z = true
      · rw [if_pos (show charLt x z = true from by
          simp only [charLt, decide_eq_true_eq] at hxy hyz ⊢
          omega)]
      · rw [if_neg hyz] at h2
        by_cases hzy : charLt z y = true
        · rw [if_pos hzy] at h2
          exact absurd h2 (by simp)
        · have hyzc : y = z := charLt_eq (bool_eq_false hyz) (bool_eq_false hzy)
          rw [if_pos (hyzc ▸ hxy)]
    · rw [if_neg hxy] at h1
      by_cases hyx : charLt y x = true
      · rw [if_pos hyx] at h1
        exact absurd h1 (by simp)
      · rw [if_neg hyx] at h1
        have hxyc : x = y := charLt_eq (bool_eq_false hxy) (bool_eq_false hyx)
        by_cases hyz : charLt y z = true
        · rw [if_pos (hxyc ▸ hyz : charLt x z = true)]
        · rw [if_neg hyz] at h2
          by_cases hzy : charLt z y = true
          · rw [if_pos hzy] at h2
            exact absurd h2 (by simp)
          · rw [if_neg hzy] at h2
            rw [if_neg (hxyc ▸ hyz : ¬charLt x z = true),
              if_neg (hxyc ▸ hzy : ¬charLt z x = true)]
            exact strLt_trans xs ys zs h1 h2

theorem strLt_connex : ∀ (a b : List Char), strLt a b = false → strLt b a = false →
    a = b
  | [], [], _, _ => rfl
  | [], _ :: _, h1, _ => by simp [strLt] at h1
  | _ :: _, [], _, h2 => by simp [strLt] at h2
  | x :: xs, y :: ys, h1, h2 => by
    rw [strLt] at h1 h2
    by_cases hxy : charLt x y = true
    · rw [if_pos hxy] at h1
      exact absurd h1 (by simp)
    · rw [if_neg hxy] at h1
      by_cases hyx : charLt y x = true
      · rw [if_pos hyx] at h2
        exact absurd h2 (by simp)
      · rw [if_neg hyx] at h1 h2
        rw [if_neg hxy] at h2
        have hc : x = y := charLt_eq (bool_eq_false hxy) (bool_eq_false hyx)
        rw [hc, strLt_connex xs ys h1 h2]

/-- Strict comparison of two cell values, modelling the `<` used by
numpy/pandas inside a homogeneous column (integers numerically, strings
lexicographically by code point, as Python compares them).  A
heterogeneous comparison, which would raise `TypeError` in pandas, is
given the arbitrary fixed order `int < str`; every theorem and witness
below only exercises homogeneous columns. -/
def Val.lt : Val → Val → Bool
  | .int a, .int b => decide (a < b)
  | .str a, .str b => strLt a.data b.data
  | .int _, .str _ => true
  | .str _, .int _ => false

theorem Val.lt_irrefl (a : Val) : Val.lt a a = false := by
  cases a with
  | str s => exact strLt_irrefl s.data
  | int n => simp [Val.lt]

theorem Val.lt_trans {a b c : Val} (h₁ : Val.lt a b = true) (h₂ : Val.lt b c = true) :
    Val.lt a c = true := by
  cases a with
  | int a =>
    cases b with
    | int b =>
      cases c with
      | int c =>
        simp only [Val.lt, decide_eq_true_eq] at h₁ h₂ ⊢
        omega
      | str c => rfl
    | str b =>
      cases c with
      | int c => simp [Val.lt] at h₂
      | str c => rfl
  | str a =>
    cases b with
    | int b => simp [Val.lt] at h₁
    | str b =>
      cases c with
      | int c => simp [Val.lt] at h₂
      | str c => exact strLt_trans a.data b.data c.data h₁ h₂

theorem Val.lt_connex {a b : Val} (h₁ : Val.lt a b = false) (h₂ : Val.lt b a = false) :
    a = b := by
  cases a with
  | int a =>
    cases b with
    | int b =>
      simp only [Val.lt, decide_eq_false_iff_not, not_lt] at h₁ h₂
      exact congrArg Val.int (le_antisymm h₂ h₁)
    | str b => simp [Val.lt] at h₁
  | str a =>
    cases b with
    | int b => simp [Val.lt] at h₂
    | str b =>
      have hd : a.data = b.data := strLt_connex a.data b.data h₁ h₂
      cases a
      cases b
      exact congrArg Val.str (congrArg String.mk hd)

theorem Val.lt_asymm {a b : Val} (h : Val.lt a b = true) : Val.lt b a = false := by
  cases hba : Val.lt b a
  · rfl
  · have := Val.lt_trans h hba
    rw [Val.lt_irrefl] at this
    exact absurd this (by simp)

/-- A row: one optional cell per column, positionally aligned with the
column list of its dataset. -/
abbrev Row := List (Option Val)

/-- The model of a pandas `DataFrame`: an ordered list of column names and
an ordered list of rows. -/
structure Df where
  columns : List String
  rows : List Row
deriving DecidableEq, Repr

/-- A dataset is aligned when every row has exactly one cell per column
(pandas DataFrames are always rectangular). -/
def Df.Aligned (df : Df) : Prop :=
  ∀ r ∈ df.rows, r.length = df.columns.length

instance (df : Df) : Decidable df.Aligned := by
  unfold Df.Aligned; infer_instance

/-- Position of the first occurrence of a column name in a column list
(pandas label lookup). -/
def colIdxFrom (c : String) : List String → Option Nat
  | [] => none
  | d :: ds => if d = c then some 0 else (colIdxFrom c ds).map (· + 1)

/-- Label lookup on a dataset: `df[c]` resolves to the position of column
`c`, or fails (`KeyError`) when absent. -/
def Df.colIdx (df : Df) (c : String) : Option Nat :=
  colIdxFrom c df.columns

theorem colIdxFrom_eq_some {c : String} {l : List String} {j : Nat}
    (h : colIdxFrom c l = some j) : j < l.length ∧ l.getD j "" = c := by
  induction l generalizing j with
  | nil => simp [colIdxFrom] at h
  | cons d ds ih =>
    by_cases hd : d = c
    · simp [colIdxFrom, hd] at h
      subst h hd
      simp
    · simp [colIdxFrom, hd] at h
      obtain ⟨j', hj', rfl⟩ := h
      obtain ⟨h1, h2⟩ := ih hj'
      constructor
      · simpa using Nat.succ_lt_succ h1
      · simpa using h2

theorem colIdxFrom_eq_none {c : String} {l : List String} :
    colIdxFrom c l = none ↔ c ∉ l := by
  induction l with
  | nil => simp [colIdxFrom]
  | cons d ds ih =>
    by_cases hd : d = c
    · simp [colIdxFrom, hd]
    · simp [colIdxFrom, hd, ih, Ne.symm hd]

theorem colIdxFrom_of_nodup {c : String} {l : List String} {j : Nat}
    (hn : l.Nodup) (hj : j < l.length) (hc : l.getD j "" = c) :
    colIdxFrom c l = some j := by
  induction l generalizing j with
  | nil => simp at hj
  | cons d ds ih =>
    cases j with
    | zero =>
      simp at hc
      simp [colIdxFrom, hc]
    | succ j' =>
      have hd : d ≠ c := by
        intro hdc
        subst hdc
        have : d ∈ ds := by
          have hj' : j' < ds.length := by simpa using hj
          have : ds.getD j' "" = d := by simpa using hc
          rw [List.getD_eq_getElem ds "" hj'] at this
          rw [← this]
          exact List.getElem_mem hj'
        exact (List.nodup_cons.mp hn).1 this
      have := ih (List.nodup_cons.mp hn).2 (by simpa using hj) (by simpa using hc)
      simp [colIdxFrom, hd, this]

/-- The cell of row `r` in column position `i` (`none` beyond the row's
length, matching a missing value). -/
def cellAt (r : Row) (i : Nat) : Option Val :=
  r.getD i none

/-! ## Cleaner operations (`datacleaner.py`, class `COVIDDataCleaner`) -/

/-- `COVIDDataCleaner.fill_missing_values(columns, fill_value)`:
for each named column, if it is present (`if column in self.df.columns`)
the column's missing cells are filled via `Series.fillna(fill_value)`;
an absent name is silently skipped. -/
def Df.fill_missing_values (df : Df) (cols : List String) (fv : Val) : Df :=
  cols.foldl
    (fun d c =>
      match d.colIdx c with
      | none => d
      | some i =>
        { d with rows := d.rows.map (fun r => r.set i (some ((cellAt r i).getD fv))) })
    df

/-- `fill_missing_values` invoked without an explicit `fill_value`:
the Python default parameter is the integer `0`. -/
def Df.fill_missing_values_default (df : Df) (cols : List String) : Df :=
  df.fill_missing_values cols (Val.int 0)

/-- `COVIDDataCleaner.remove_rows_with_missing_values()`:
`DataFrame.dropna(how='all')` keeps exactly the rows with at least one
non-missing cell. -/
def Df.remove_rows_with_missing_values (df : Df) : Df :=
  { df with rows := df.rows.filter (fun r => r.any (·.isSome)) }

/-- The hash-table keep-first scan behind `DataFrame.drop_duplicates()`
(and the collection of distinct `groupby` keys): an element is kept iff it
has not been seen before; `seen` accumulates the elements kept so far. -/
def dedupAux  [DecidableEq α] (seen : List α) : List α → List α
  | [] => []
  | r :: rest => if r ∈ seen then dedupAux seen rest else r :: dedupAux (r :: seen) rest

/-- `COVIDDataCleaner.remove_duplicate_rows()`:
`DataFrame.drop_duplicates()` over all columns, keeping the first occurrence
(`keep='first'` default) and preserving the order of the kept rows. -/
def Df.remove_duplicate_rows (df : Df) : Df :=
  { df with rows := dedupAux [] df.rows }

/-- `COVIDDataCleaner.replace_values(column, old_value, new_value)`:
`self.df[column]` raises `KeyError` when the column is absent; otherwise
`Series.replace(old, new)` substitutes cells equal to `old` (a missing cell
is not equal to any concrete value and stays missing). -/
def Df.replace_values (df : Df) (c : String) (old new : Val) : Except String Df :=
  match df.colIdx c with
  | none => .error "KeyError"
  | some i =>
    .ok { df with rows := df.rows.map (fun r =>
      r.set i (match cellAt r i with
               | some v => some (if v = old then new else v)
               | none => none)) }

/-! ## A stable binary-comparator insertion sort

numpy's introsort falls back to an insertion sort on small ranges; pandas
`groupby` and `nlargest` sort with the stable `mergesort` kind.  Both are
rendered through the same generic insertion sort, which is stable: an
element is inserted after every element it is not strictly below. -/

/-- Insert `x` into `l` before the first element that `x` is strictly
below; equivalently (on a sorted `l`) after every element `≤ x`, which is
how the numpy insertion sort shifts only strictly greater elements. -/
def insBy (lt : α → α → Bool) (x : α) : List α → List α
  | [] => [x]
  | y :: ys => if lt x y then x :: y :: ys else y :: insBy lt x ys

/-- Left-to-right insertion sort with strict comparator `lt`; processing
the input in order makes the sort stable. -/
def sortBy (lt : α → α → Bool) (l : List α) : List α :=
  l.foldl (fun acc x => insBy lt x acc) []

theorem insBy_perm (lt : α → α → Bool) (x : α) (l : List α) :
    (insBy lt x l).Perm (x :: l) := by
  induction l with
  | nil => simp [insBy]
  | cons y ys ih =>
    by_cases h : lt x y
    · simp [insBy, h]
    · simp only [insBy, h, if_neg, Bool.false_eq_true, if_false]
      exact (ih.cons y).trans (List.Perm.swap x y ys)

theorem sortBy_perm (lt : α → α → Bool) (l : List α) : (sortBy lt l).Perm l := by
  suffices h : ∀ (l acc : List α), (l.foldl (fun acc x => insBy lt x acc) acc).Perm (acc ++ l) by
    simpa using h l []
  intro l
  induction l with
  | nil => simp
  | cons x xs ih =>
    intro acc
    simp only [List.foldl_cons]
    refine (ih (insBy lt x acc)).trans ?_
    have h1 : (insBy lt x acc ++ xs).Perm ((x :: acc) ++ xs) :=
      (insBy_perm lt x acc).append_right xs
    refine h1.trans ?_
    simp only [List.cons_append]
    exact List.perm_middle.symm

theorem insBy_mem {lt : α → α → Bool} {x z : α} {l : List α}
    (h : z ∈ insBy lt x l) : z = x ∨ z ∈ l := by
  have := (insBy_perm lt x l).mem_iff.mp h
  simpa using this

/-- After inserting, every element is either strictly below a later one or
ties with it while coming earlier in the original order `Q`. -/
def StableRel (lt : α → α → Bool) (Q : α → α → Prop) (a b : α) : Prop :=
  lt a b = true ∨ (lt a b = false ∧ lt b a = false ∧ Q a b)

theorem insBy_pairwise {lt : α → α → Bool} {Q : α → α → Prop}
    (htr : ∀ a b c, lt a b = true → lt b c = true → lt a c = true)
    (htie : ∀ a b, lt a b = false → lt b a = false →
      ∀ c, lt c a = lt c b ∧ lt a c = lt b c)
    {x : α} {acc : List α}
    (hacc : acc.Pairwise (StableRel lt Q))
    (hQ : ∀ a ∈ acc, lt a x = false → lt x a = false → Q a x) :
    (insBy lt x acc).Pairwise (StableRel lt Q) := by
  induction acc with
  | nil => simp [insBy]
  | cons y ys ih =>
    rcases List.pairwise_cons.mp hacc with ⟨hy, hys⟩
    by_cases hxy : lt x y = true
    · simp only [insBy, hxy, if_true]
      refine List.pairwise_cons.mpr ⟨?_, hacc⟩
      intro z hz
      rcases List.mem_cons.mp hz with rfl | hzys
      · exact Or.inl hxy
      · rcases hy z hzys with hlt | ⟨h1, h2, _⟩
        · exact Or.inl (htr x y z hxy hlt)
        · exact Or.inl (((htie y z h1 h2 x).1 ▸ hxy))
    · have hxy' : lt x y = false := by
        cases h : lt x y
        · rfl
        · exact absurd h hxy
      simp only [insBy, hxy', Bool.false_eq_true, if_false]
      refine List.pairwise_cons.mpr ⟨?_, ?_⟩
      · intro z hz
        rcases insBy_mem hz with rfl | hzys
        · by_cases hyx : lt y z = true
          · exact Or.inl hyx
          · have hyx' : lt y z = false := by
              cases h : lt y z
              · rfl
              · exact absurd h hyx
            exact Or.inr ⟨hyx', hxy', hQ y (List.mem_cons_self y ys) hyx' hxy'⟩
        · exact hy z hzys
      · exact ih hys (fun a ha h1 h2 => hQ a (List.mem_cons_of_mem y ha) h1 h2)

theorem sortBy_pairwise {lt : α → α → Bool} {Q : α → α → Prop}
    (htr : ∀ a b c, lt a b = true → lt b c = true → lt a c = true)
    (htie : ∀ a b, lt a b = false → lt b a = false →
      ∀ c, lt c a = lt c b ∧ lt a c = lt b c)
    {l : List α} (hl : l.Pairwise Q) :
    (sortBy lt l).Pairwise (StableRel lt Q) := by
  suffices h : ∀ (l acc : List α), acc.Pairwise (StableRel lt Q) →
      (∀ a ∈ acc, ∀ b ∈ l, Q a b) → l.Pairwise Q →
      (l.foldl (fun acc x => insBy lt x acc) acc).Pairwise (StableRel lt Q) by
    exact h l [] (by simp) (by simp) hl
  intro l
  induction l with
  | nil => intro acc hacc _ _; simpa using hacc
  | cons x xs ih =>
    intro acc hacc hfut hl'
    rcases List.pairwise_cons.mp hl' with ⟨hx, hxs⟩
    simp only [List.foldl_cons]
    refine ih (insBy lt x acc) ?_ ?_ hxs
    · exact insBy_pairwise htr htie hacc
        (fun a ha _ _ => hfut a ha x (List.mem_cons_self x xs))
    · intro a ha b hb
      rcases insBy_mem ha with rfl | haacc
      · exact hx b hb
      · exact hfut a haacc b (List.mem_cons_of_mem x hb)

/-! ## numpy's argsort with the default `quicksort` kind

`DataFrame.sort_values` defaults to `kind='quicksort'`, numpy's introsort
(`npysort` `aquicksort`): median-of-3 quicksort falling back to an
insertion sort on ranges of at most `SMALL_QUICKSORT + 1 = 16` elements
and to a heapsort once a depth budget of `2 * floor(log2 n)` partitions is
spent.  The C routine's explicit stack is rendered as recursion that
processes the smaller partition first, threading the shared depth counter;
the loops are driven by a fuel argument that the concrete control flow
never exhausts.  `lt p q` compares the values stored at positions `p` and
`q` of the array being argsorted. -/

/-- Exchange the entries at positions `i` and `j` (`INTP_SWAP`). -/
def swapIdx (a : Array Nat) (i j : Nat) : Array Nat :=
  let x := a.getD i 0
  let y := a.getD j 0
  (a.setD i y).setD j x

/-- `do ++pi; while (LT(v[*pi], vp))`: advance past entries strictly below
the pivot. -/
def scanUp (lt : Nat → Nat → Bool) (a : Array Nat) (vp : Nat) : Nat → Nat → Nat
  | 0, pi => pi + 1
  | f + 1, pi =>
    let pi' := pi + 1
    if lt (a.getD pi' 0) vp then scanUp lt a vp f pi' else pi'

/-- `do --pj; while (LT(vp, v[*pj]))`: retreat past entries strictly above
the pivot. -/
def scanDown (lt : Nat → Nat → Bool) (a : Array Nat) (vp : Nat) : Nat → Nat → Nat
  | 0, pj => pj - 1
  | f + 1, pj =>
    let pj' := pj - 1
    if lt vp (a.getD pj' 0) then scanDown lt a vp f pj' else pj'

/-- The inner partition exchange loop; returns the array and the final
`pi` where the pivot belongs. -/
def partLoop (lt : Nat → Nat → Bool) (vp : Nat) :
    Nat → Array Nat → Nat → Nat → Array Nat × Nat
  | 0, a, pi, _ => (a, pi)
  | f + 1, a, pi, pj =>
    let pi' := scanUp lt a vp a.size pi
    let pj' := scanDown lt a vp a.size pj
    if pj' ≤ pi' then (a, pi')
    else partLoop lt vp f (swapIdx a pi' pj') pi' pj'

/-- One `aquicksort` partition step over the whole array `a` (the current
segment): median-of-3 pivot selection, pivot parked at `size - 2`,
partition exchange, pivot swapped into its final position `pi`. -/
def npPartition (lt : Nat → Nat → Bool) (a : Array Nat) : Array Nat × Nat :=
  let m := a.size
  let pm := (m - 1) / 2
  let a := if lt (a.getD pm 0) (a.getD 0 0) then swapIdx a pm 0 else a
  let a := if lt (a.getD (m - 1) 0) (a.getD pm 0) then swapIdx a (m - 1) pm else a
  let a := if lt (a.getD pm 0) (a.getD 0 0) then swapIdx a pm 0 else a
  let vp := a.getD pm 0
  let a := swapIdx a pm (m - 2)
  let pr := partLoop lt vp m a 0 (m - 2)
  (swapIdx pr.1 pr.2 (m - 2), pr.2)

/-- The sift-down of numpy's `aheapsort` on the 1-based view `a[1..n]`:
`tmp` is the entry being placed, `i` the hole, `j` its child. -/
def siftDown (lt : Nat → Nat → Bool) (n tmp : Nat) :
    Nat → Array Nat → Nat → Nat → Array Nat
  | 0, a, i, _ => a.setD (i - 1) tmp
  | f + 1, a, i, j =>
    if j ≤ n then
      let j := if j < n && lt (a.getD (j - 1) 0) (a.getD j 0) then j + 1 else j
      if lt tmp (a.getD (j - 1) 0) then
        siftDown lt n tmp f (a.setD (i - 1) (a.getD (j - 1) 0)) j (2 * j)
      else a.setD (i - 1) tmp
    else a.setD (i - 1) tmp

/-- Heap construction phase of `aheapsort` (`l` descending from `n / 2`). -/
def heapifyLoop (lt : Nat → Nat → Bool) (n : Nat) :
    Nat → Array Nat → Nat → Array Nat
  | 0, a, _ => a
  | f + 1, a, l =>
    if l = 0 then a
    else
      let tmp := a.getD (l - 1) 0
      let a := siftDown lt n tmp (n + 2) a l (2 * l)
      heapifyLoop lt n f a (l - 1)

/-- Extraction phase of `aheapsort`: repeatedly move the root behind the
shrinking heap. -/
def heapExtract (lt : Nat → Nat → Bool) : Nat → Array Nat → Nat → Array Nat
  | 0, a, _ => a
  | f + 1, a, n =>
    if n ≤ 1 then a
    else
      let tmp := a.getD (n - 1) 0
      let a := a.setD (n - 1) (a.getD 0 0)
      let n' := n - 1
      let a := siftDown lt n' tmp (n' + 2) a 1 2
      heapExtract lt f a n'

/-- numpy `aheapsort` over a whole segment. -/
def heapSortArr (lt : Nat → Nat → Bool) (a : Array Nat) : Array Nat :=
  heapExtract lt (a.size + 1) (heapifyLoop lt a.size (a.size + 1) a (a.size / 2)) a.size

/-- The introsort driver: insertion sort on at most 16 entries, heapsort
once the depth budget is spent, otherwise partition and recurse, smaller
side first, threading the remaining depth. -/
def npGo (lt : Nat → Nat → Bool) (fuel : Nat) (seg : List Nat) (depth : Nat) :
    List Nat × Nat :=
  if seg.length ≤ 16 then (sortBy lt seg, depth)
  else
    match fuel with
    | 0 => (seg, depth)
    | f + 1 =>
      if depth = 0 then ((heapSortArr lt seg.toArray).toList, depth)
      else
        let ap := npPartition lt seg.toArray
        let l := ap.1.toList.take ap.2
        let piv := ap.1.getD ap.2 0
        let r := ap.1.toList.drop (ap.2 + 1)
        if l.length < r.length then
          let ls := npGo lt f l (depth - 1)
          let rs := npGo lt f r ls.2
          (ls.1 ++ piv :: rs.1, rs.2)
        else
          let rs := npGo lt f r (depth - 1)
          let ls := npGo lt f l rs.2
          (ls.1 ++ piv :: rs.1, rs.2)

/-- `npy_get_msb`: the position of the highest set bit (`floor(log2 n)`),
rendered with a fuel argument mirroring its shift loop. -/
def npGetMsb : Nat → Nat → Nat
  | 0, _ => 0
  | f + 1, n => if n ≤ 1 then 0 else npGetMsb f (n / 2) + 1

/-- `ndarray.argsort(kind='quicksort')` of an `n`-element array whose
positions are compared by `lt`. -/
def npArgsort (lt : Nat → Nat → Bool) (n : Nat) : List Nat :=
  (npGo lt (n + 2) (List.range n) (2 * npGetMsb n n)).1

theorem npArgsort_small {lt : Nat → Nat → Bool} {n : Nat} (h : n ≤ 16) :
    npArgsort lt n = sortBy lt (List.range n) := by
  unfold npArgsort npGo
  rw [if_pos (by simpa using h)]

/-! ## `COVIDDataCleaner.sort_data` -/

/-- The sort key of row `i` in column position `ci` (`NaN` as `none`). -/
def Df.keyOf (df : Df) (ci : Nat) (i : Nat) : Option Val :=
  cellAt (df.rows.getD i []) ci

/-- pandas `nargsort(values, kind='quicksort', ascending, na_position='last')`,
the row indexer behind a single-column `sort_values`: the non-missing
positions are argsorted (reversed before and after for a descending sort)
and the missing positions are appended in original order. -/
def Df.sortIndexer (df : Df) (ci : Nat) (ascending : Bool) : List Nat :=
  let n := df.rows.length
  let nonNanIdx := (List.range n).filter (fun i => (df.keyOf ci i).isSome)
  let nanIdx := (List.range n).filter (fun i => !(df.keyOf ci i).isSome)
  let idxs := if ascending then nonNanIdx else nonNanIdx.reverse
  let v : Nat → Val := fun p => (df.keyOf ci (idxs.getD p 0)).getD (Val.int 0)
  let perm := npArgsort (fun p q => Val.lt (v p) (v q)) idxs.length
  let indexer := perm.map (fun p => idxs.getD p 0)
  (if ascending then indexer else indexer.reverse) ++ nanIdx

/-- `COVIDDataCleaner.sort_data(column, ascending)`:
`self.df.sort_values(by=column, ascending=ascending, inplace=True)` with
the default `kind='quicksort'`; `KeyError` when the column is absent. -/
def Df.sort_data (df : Df) (c : String) (ascending : Bool) : Except String Df :=
  match df.colIdx c with
  | none => .error "KeyError"
  | some ci =>
    .ok { df with rows := (df.sortIndexer ci ascending).map (fun i => df.rows.getD i []) }

/-- Ordering of two rows `i`, `j` with keys `x`, `y` in a correctly and
stably sorted indexer: a strictly smaller key (larger for descending), or
equal keys with the original order `i < j` preserved; missing keys come
last, also in original order. -/
def keyRel (ascending : Bool) : Option Val → Option Val → Nat → Nat → Prop
  | some a, some b, i, j =>
    (if ascending then Val.lt a b else Val.lt b a) = true ∨ (a = b ∧ i < j)
  | some _, none, _, _ => True
  | none, some _, _, _ => False
  | none, none, i, j => i < j

/-- What row `i` coming before row `j` means in a correctly and stably
sorted indexer for the key column at position `ci`. -/
def SortedKey (df : Df) (ci : Nat) (ascending : Bool) (i j : Nat) : Prop :=
  keyRel ascending (df.keyOf ci i) (df.keyOf ci j) i j

theorem pairwise_getD_of_lt {l : List α} {R : α → α → Prop} {d : α}
    (h : l.Pairwise R) {p q : Nat} (hpq : p < q) (hq : q < l.length) :
    R (l.getD p d) (l.getD q d) := by
  have hp : p < l.length := hpq.trans hq
  rw [List.getD_eq_getElem l d hp, List.getD_eq_getElem l d hq]
  exact List.pairwise_iff_getElem.mp h p q hp hq hpq

theorem map_getD_range (l : List α) (d : α) :
    (List.range l.length).map (fun p => l.getD p d) = l := by
  apply List.ext_getElem
  · simp
  · intro i h1 h2
    simp only [List.getElem_map, List.getElem_range]
    exact List.getD_eq_getElem l d h2

theorem getD_mem_of_lt {l : List α} {d : α} {p : Nat} (h : p < l.length) :
    l.getD p d ∈ l := by
  rw [List.getD_eq_getElem l d h]
  exact List.getElem_mem h

theorem isSome_eq_some_getD {o : Option Val} (h : o.isSome = true) :
    o = some (o.getD (Val.int 0)) := by
  cases o with
  | none => simp at h
  | some v => rfl

theorem vlt_htr (v : Nat → Val) :
    ∀ a b c : Nat, Val.lt (v a) (v b) = true → Val.lt (v b) (v c) = true →
      Val.lt (v a) (v c) = true :=
  fun _ _ _ => Val.lt_trans

theorem vlt_htie (v : Nat → Val) :
    ∀ a b : Nat, Val.lt (v a) (v b) = false → Val.lt (v b) (v a) = false →
      ∀ c, Val.lt (v c) (v a) = Val.lt (v c) (v b) ∧
        Val.lt (v a) (v c) = Val.lt (v b) (v c) := by
  intro a b h1 h2 c
  rw [Val.lt_connex h1 h2]
  exact ⟨rfl, rfl⟩

theorem npArgsort_pairwise (v : Nat → Val) {k : Nat} (hk : k ≤ 16) :
    (npArgsort (fun p q => Val.lt (v p) (v q)) k).Pairwise
      (fun p q => Val.lt (v p) (v q) = true ∨ (v p = v q ∧ p < q)) := by
  rw [npArgsort_small hk]
  have h := sortBy_pairwise (vlt_htr v) (vlt_htie v) (List.pairwise_lt_range k)
  refine h.imp ?_
  intro p q hpq
  rcases hpq with hlt | ⟨h1, h2, h3⟩
  · exact Or.inl hlt
  · exact Or.inr ⟨Val.lt_connex h1 h2, h3⟩

theorem npArgsort_mem {lt : Nat → Nat → Bool} {k p : Nat} (hk : k ≤ 16)
    (hp : p ∈ npArgsort lt k) : p < k := by
  rw [npArgsort_small hk] at hp
  exact List.mem_range.mp ((sortBy_perm lt (List.range k)).mem_iff.mp hp)

theorem npArgsort_perm (lt : Nat → Nat → Bool) {k : Nat} (hk : k ≤ 16) :
    (npArgsort lt k).Perm (List.range k) := by
  rw [npArgsort_small hk]
  exact sortBy_perm lt (List.range k)

/-- Stability of a single-column `sort_values` for datasets of at most 16
rows: numpy's introsort never partitions such an input, so the argsort is
the (stable) insertion sort, and the indexer lists the rows in
key-then-original order, missing keys last. -/
theorem sortIndexer_small_sorted (df : Df) (ci : Nat) (asc : Bool)
    (h16 : df.rows.length ≤ 16) :
    (df.sortIndexer ci asc).Pairwise (SortedKey df ci asc) ∧
      (df.sortIndexer ci asc).Perm (List.range df.rows.length) := by
  have hnonNanPW : ((List.range df.rows.length).filter
      (fun i => (df.keyOf ci i).isSome)).Pairwise (· < ·) :=
    List.Pairwise.sublist (List.filter_sublist _) (List.pairwise_lt_range _)
  have hnanPW : ((List.range df.rows.length).filter
      (fun i => !(df.keyOf ci i).isSome)).Pairwise (· < ·) :=
    List.Pairwise.sublist (List.filter_sublist _) (List.pairwise_lt_range _)
  have hsplit : (((List.range df.rows.length).filter (fun i => (df.keyOf ci i).isSome)) ++
      ((List.range df.rows.length).filter (fun i => !(df.keyOf ci i).isSome))).Perm
      (List.range df.rows.length) := List.filter_append_perm _ _
  have hkeysome : ∀ i ∈ (List.range df.rows.length).filter
      (fun i => (df.keyOf ci i).isSome), (df.keyOf ci i).isSome = true :=
    fun i hi => (List.mem_filter.mp hi).2
  have hkeynone : ∀ j ∈ (List.range df.rows.length).filter
      (fun i => !(df.keyOf ci i).isSome), df.keyOf ci j = none := by
    intro j hj
    have := (List.mem_filter.mp hj).2
    simpa [Option.not_isSome_iff_eq_none] using this
  have hklen : ((List.range df.rows.length).filter
      (fun i => (df.keyOf ci i).isSome)).length ≤ 16 :=
    le_trans (le_trans (List.length_filter_le _ _) (by simp)) h16
  cases asc with
  | true =>
    set nonNan := (List.range df.rows.length).filter
      (fun i => (df.keyOf ci i).isSome) with hnonNandef
    set nan := (List.range df.rows.length).filter
      (fun i => !(df.keyOf ci i).isSome) with hnandef
    set v : Nat → Val := fun p => (df.keyOf ci (nonNan.getD p 0)).getD (Val.int 0)
      with hvdef
    have hdef : df.sortIndexer ci true =
        ((npArgsort (fun p q => Val.lt (v p) (v q)) nonNan.length).map
          (fun p => nonNan.getD p 0)) ++ nan := rfl
    have hfkey : ∀ {p : Nat}, p < nonNan.length →
        df.keyOf ci (nonNan.getD p 0) = some (v p) := by
      intro p hp
      exact isSome_eq_some_getD (hkeysome _ (getD_mem_of_lt hp))
    rw [hdef]
    constructor
    · rw [List.pairwise_append]
      refine ⟨?_, ?_, ?_⟩
      · rw [List.pairwise_map]
        refine (npArgsort_pairwise v hklen).imp_of_mem ?_
        intro p q hp hq hrel
        have hpk : p < nonNan.length := npArgsort_mem hklen hp
        have hqk : q < nonNan.length := npArgsort_mem hklen hq
        unfold SortedKey
        rw [hfkey hpk, hfkey hqk]
        rcases hrel with hlt | ⟨heq, hpq⟩
        · exact Or.inl (by simpa using hlt)
        · exact Or.inr ⟨heq, pairwise_getD_of_lt hnonNanPW hpq hqk⟩
      · refine hnanPW.imp_of_mem ?_
        intro i j hi hj hij
        unfold SortedKey
        rw [hkeynone i hi, hkeynone j hj]
        exact hij
      · intro a ha b hb
        rcases List.mem_map.mp ha with ⟨p, hp, rfl⟩
        have hpk : p < nonNan.length := npArgsort_mem hklen hp
        unfold SortedKey
        rw [hfkey hpk, hkeynone b hb]
        trivial
    · refine (List.Perm.append ?_ (List.Perm.refl nan)).trans hsplit
      have h1 := (npArgsort_perm (fun p q => Val.lt (v p) (v q)) hklen).map
        (fun p => nonNan.getD p 0)
      rwa [map_getD_range nonNan 0] at h1
  | false =>
    set nonNan := (List.range df.rows.length).filter
      (fun i => (df.keyOf ci i).isSome) with hnonNandef
    set nan := (List.range df.rows.length).filter
      (fun i => !(df.keyOf ci i).isSome) with hnandef
    set idxs := nonNan.reverse with hidxsdef
    set v : Nat → Val := fun p => (df.keyOf ci (idxs.getD p 0)).getD (Val.int 0)
      with hvdef
    have hdef : df.sortIndexer ci false =
        ((npArgsort (fun p q => Val.lt (v p) (v q)) idxs.length).map
          (fun p => idxs.getD p 0)).reverse ++ nan := rfl
    have hklen' : idxs.length ≤ 16 := by
      rw [hidxsdef, List.length_reverse]
      exact hklen
    have hidxsGt : idxs.Pairwise (fun a b => b < a) := by
      rw [hidxsdef]
      exact List.pairwise_reverse.mpr hnonNanPW
    have hidxsmem : ∀ {p : Nat}, p < idxs.length → idxs.getD p 0 ∈ nonNan := by
      intro p hp
      have hmem : idxs.getD p 0 ∈ idxs := getD_mem_of_lt hp
      rw [hidxsdef] at hmem ⊢
      exact List.mem_reverse.mp hmem
    have hfkey : ∀ {p : Nat}, p < idxs.length →
        df.keyOf ci (idxs.getD p 0) = some (v p) := by
      intro p hp
      exact isSome_eq_some_getD (hkeysome _ (hidxsmem hp))
    rw [hdef]
    constructor
    · rw [List.pairwise_append]
      refine ⟨?_, ?_, ?_⟩
      · rw [List.pairwise_reverse, List.pairwise_map]
        refine (npArgsort_pairwise v hklen').imp_of_mem ?_
        intro p q hp hq hrel
        have hpk : p < idxs.length := npArgsort_mem hklen' hp
        have hqk : q < idxs.length := npArgsort_mem hklen' hq
        unfold SortedKey
        rw [hfkey hpk, hfkey hqk]
        rcases hrel with hlt | ⟨heq, hpq⟩
        · exact Or.inl (by simpa using hlt)
        · exact Or.inr ⟨heq.symm, pairwise_getD_of_lt hidxsGt hpq hqk⟩
      · refine hnanPW.imp_of_mem ?_
        intro i j hi hj hij
        unfold SortedKey
        rw [hkeynone i hi, hkeynone j hj]
        exact hij
      · intro a ha b hb
        rw [List.mem_reverse] at ha
        rcases List.mem_map.mp ha with ⟨p, hp, rfl⟩
        have hpk : p < idxs.length := npArgsort_mem hklen' hp
        unfold SortedKey
        rw [hfkey hpk, hkeynone b hb]
        trivial
    · refine (List.Perm.append ?_ (List.Perm.refl nan)).trans hsplit
      refine (List.reverse_perm _).trans ?_
      have h1 := (npArgsort_perm (fun p q => Val.lt (v p) (v q)) hklen').map
        (fun p => idxs.getD p 0)
      rw [map_getD_range idxs 0] at h1
      exact h1.trans (by rw [hidxsdef]; exact List.reverse_perm nonNan)

/-! ## Summary queries (`datasummary.py`, class `DataSummary`) -/

/-- pandas `Series.max()` with the default `skipna=True`: the maximum of
the non-missing values, `NaN` (here `none`) when the series is empty or
entirely missing. -/
def seriesMax (cells : List (Option Val)) : Option Val :=
  (cells.filterMap id).foldl
    (fun acc v =>
      match acc with
      | none => some v
      | some m => some (if Val.lt m v then v else m))
    none

/-- The three entries of the dict built by
`DataSummary.country_specific_summary`. -/
structure CountrySummary where
  totalCases : Option Val
  totalDeaths : Option Val
  totalVaccinations : Option Val
deriving DecidableEq, Repr

/-- `DataSummary.country_specific_summary(country_code)`: filter the rows
whose `iso_code` equals the argument (a missing `iso_code` matches
nothing), then take `Series.max()` of each measure column over that
subset; column lookups raise `KeyError` when absent. -/
def Df.country_specific_summary (df : Df) (code : Val) :
    Except String CountrySummary :=
  match df.colIdx "iso_code", df.colIdx "total_cases", df.colIdx "total_deaths",
      df.colIdx "total_vaccinations" with
  | some i, some c, some d, some w =>
    let sub := df.rows.filter (fun r => cellAt r i = some code)
    .ok { totalCases := seriesMax (sub.map (fun r => cellAt r c)),
          totalDeaths := seriesMax (sub.map (fun r => cellAt r d)),
          totalVaccinations := seriesMax (sub.map (fun r => cellAt r w)) }
  | _, _, _, _ => .error "KeyError"

/-- `df.groupby('location')[measure].max()` with the groupby defaults
`sort=True` and `dropna=True`: one entry per distinct non-missing
location, keys in ascending order, value the skipna-max over the group
(`none` for an all-missing group). -/
def Df.groupMaxByLocation (df : Df) (li mi : Nat) : List (Val × Option Val) :=
  (sortBy Val.lt (dedupAux [] (df.rows.filterMap (fun r => cellAt r li)))).map
    (fun k =>
      (k, seriesMax ((df.rows.filter (fun r => cellAt r li = some k)).map
        (fun r => cellAt r mi))))

/-- `Series.sort_values(ascending=False)` on a series with no missing
entries (pandas `nargsort` since the GH 35922 refactor, with the default
`kind='quicksort'`): the positions are reversed, argsorted ascending by
numpy's introsort, and the indexer is reversed back. -/
def seriesSortDesc (l : List (Val × Val)) : List (Val × Val) :=
  let idxs := (List.range l.length).reverse
  let v : Nat → Val := fun p => (l.getD (idxs.getD p 0) (Val.int 0, Val.int 0)).2
  let perm := npArgsort (fun p q => Val.lt (v p) (v q)) l.length
  ((perm.map (fun p => idxs.getD p 0)).reverse).map
    (fun i => l.getD i (Val.int 0, Val.int 0))

/-- `Series.nlargest(n)` with the default `keep='first'`, following pandas
`SelectNSeries.compute`: a non-positive `n` yields an empty result (not an
error); missing values are dropped; when `n ≥ len(self.obj)` — `total`,
the length of the series before `dropna` — the slow path re-sorts the
dropped values with `sort_values(ascending=False)` (the unstable default
quicksort) and takes the head; otherwise the fast path selects through a
`kth_smallest` threshold and a stable `mergesort` argsort, equivalent to
taking `n` entries of the stable descending sort. -/
def nlargestPairs (n : Int) (total : Nat) (l : List (Val × Val)) :
    List (Val × Val) :=
  if n ≤ 0 then []
  else if (total : Int) ≤ n then (seriesSortDesc l).take n.toNat
  else (sortBy (fun p q => Val.lt q.2 p.2) l).take n.toNat

/-- Common body of the three top-N queries:
`self.df.groupby('location')[measure].max().nlargest(top_n)`. -/
def Df.highestBy (df : Df) (measure : String) (n : Int) :
    Except String (List (Val × Val)) :=
  match df.colIdx "location", df.colIdx measure with
  | some li, some mi =>
    .ok (nlargestPairs n (df.groupMaxByLocation li mi).length
      ((df.groupMaxByLocation li mi).filterMap
        (fun p => p.2.map (fun v => (p.1, v)))))
  | _, _ => .error "KeyError"

/-- `DataSummary.highest_case_countries(top_n)`. -/
def Df.highest_case_countries (df : Df) (n : Int) :
    Except String (List (Val × Val)) :=
  df.highestBy "total_cases" n

/-- `DataSummary.highest_death_countries(top_n)`. -/
def Df.highest_death_countries (df : Df) (n : Int) :
    Except String (List (Val × Val)) :=
  df.highestBy "total_deaths" n

/-- `DataSummary.highest_vaccination_countries(top_n)`. -/
def Df.highest_vaccination_countries (df : Df) (n : Int) :
    Except String (List (Val × Val)) :=
  df.highestBy "total_vaccinations" n

/-- `DataSummary.trend_over_time(country_code, measure)`: the rows whose
`iso_code` equals the argument, projected to their `(date, measure)`
cells, in the order the rows occur in the dataset
(`country_data[['date', measure]].set_index('date')` performs no sort). -/
def Df.trend_over_time (df : Df) (code : Val) (measure : String) :
    Except String (List (Option Val × Option Val)) :=
  match df.colIdx "iso_code", df.colIdx "date", df.colIdx measure with
  | some i, some di, some mi =>
    .ok ((df.rows.filter (fun r => cellAt r i = some code)).map
      (fun r => (cellAt r di, cellAt r mi)))
  | _, _, _ => .error "KeyError"

/-! ## Scraper (`scrape.py`, `CovidDataScraper.fetch_data`) -/

/-- Python `IndexError("list index out of range")` as raised by `cols[i]`:
it carries no row position and no cell-count shortfall. -/
inductive PyErr where
  | indexError
deriving DecidableEq, Repr

/-- The scraper's `field_list`: the 11 expected output columns. -/
def field_list : List String :=
  ["Name", "Total Cases", "New Cases", "Total Deaths", "New Deaths",
   "Total Recovered", "New Recovered", "Active Cases", "Serious Cases",
   "Total Tests", "Population"]

/-- `cols[1:10] + [cols[12]] + [cols[14]]` over one row's stripped cell
texts: the slice never fails (it silently shortens), but `cols[12]` and
`cols[14]` raise `IndexError` on a row with fewer than 15 cells. -/
def processRow (cols : List String) : Except PyErr (List String) :=
  match cols.get? 12 with
  | none => .error .indexError
  | some c12 =>
    match cols.get? 14 with
    | none => .error .indexError
    | some c14 => .ok (((cols.drop 1).take 9) ++ [c12] ++ [c14])

/-- `CovidDataScraper.fetch_data` after the HTTP fetch and HTML parse,
taking the stripped cell texts of every `<tr>` of the table body: rows
`[8:229]` are selected and each is reduced to its 11 extracted fields;
the first short row aborts the whole loop with its `IndexError`. -/
def fetch_data (tableRows : List (List String)) :
    Except PyErr (List (List String)) :=
  ((tableRows.drop 8).take 221).mapM processRow

/-! ## Loader (`dataloader.py`, `CovidDataLoader.load_data`) -/

/-- `CovidDataLoader.load_data`: `pd.read_csv(self.file_path)` either
yields a dataframe or raises (missing path, malformed content, ...); the
`try/except Exception` catches any raise, prints a message and returns
`None`.  The underlying read is passed in as its outcome, an exception
modelled as `Except.error` with its message. -/
def load_data (readCsv : Except String Df) : Option Df :=
  match readCsv with
  | .ok df => some df
  | .error _ => none

/-! ## Cell-level behaviour of the cleaner operations -/

theorem fill_compose (A B : Prop) [Decidable A] [Decidable B]
    (cell : Option Val) (fv : Val) :
    (if B ∧ (if A ∧ cell = none then some fv else cell) = none then some fv
     else if A ∧ cell = none then some fv else cell) =
    if (A ∨ B) ∧ cell = none then some fv else cell := by
  by_cases hA : A <;> by_cases hB : B <;> by_cases hZ : cell = none <;>
    simp [hA, hB, hZ]

theorem cellAt_set_of_lt {r : Row} {i j : Nat} (x : Option Val) (hj : j < r.length) :
    cellAt (r.set i x) j = if i = j then x else cellAt r j := by
  have hj' : j < (r.set i x).length := by simpa [List.length_set] using hj
  unfold cellAt
  rw [List.getD_eq_getElem _ _ hj', List.getD_eq_getElem _ _ hj]
  exact List.getElem_set hj'

theorem getD_map_of_lt (f : α → β) {l : List α} {k : Nat} (hk : k < l.length)
    (d : α) (e : β) : (l.map f).getD k e = f (l.getD k d) := by
  have hk' : k < (l.map f).length := by simpa using hk
  rw [List.getD_eq_getElem _ _ hk', List.getD_eq_getElem _ _ hk, List.getElem_map]

/-- Full cell-level description of `fill_missing_values` on a rectangular
dataset with distinct column labels: the column list and the number of
rows never change, a missing cell of a named present column becomes the
fill value, and every other cell is untouched (in particular a named but
absent column has no effect). -/
theorem fill_missing_values_cells (df : Df) (cols : List String) (fv : Val)
    (hal : df.Aligned) (hnd : df.columns.Nodup) :
    (df.fill_missing_values cols fv).columns = df.columns ∧
    (df.fill_missing_values cols fv).rows.length = df.rows.length ∧
    ∀ k j, k < df.rows.length → j < df.columns.length →
      cellAt ((df.fill_missing_values cols fv).rows.getD k []) j =
        if df.columns.getD j "" ∈ cols ∧ cellAt (df.rows.getD k []) j = none
        then some fv else cellAt (df.rows.getD k []) j := by
  induction cols generalizing df with
  | nil =>
    refine ⟨rfl, rfl, ?_⟩
    intro k j hk hj
    simp only [List.not_mem_nil, false_and, if_false]
    rfl
  | cons c cs ih =>
    have hstep : ∃ d' : Df,
        df.fill_missing_values (c :: cs) fv = d'.fill_missing_values cs fv ∧
        d'.columns = df.columns ∧ d'.rows.length = df.rows.length ∧ d'.Aligned ∧
        ∀ k j, k < df.rows.length → j < df.columns.length →
          cellAt (d'.rows.getD k []) j =
            if df.columns.getD j "" = c ∧ cellAt (df.rows.getD k []) j = none
            then some fv else cellAt (df.rows.getD k []) j := by
      cases hcol : df.colIdx c with
      | none =>
        refine ⟨df, ?_, rfl, rfl, hal, ?_⟩
        · simp only [Df.fill_missing_values, List.foldl_cons, hcol]
        · intro k j hk hj
          have hne : df.columns.getD j "" ≠ c := by
            intro he
            exact (colIdxFrom_eq_none.mp hcol) (he ▸ getD_mem_of_lt hj)
          exact (if_neg (fun h => hne h.1)).symm
      | some i =>
        obtain ⟨hilen, hic⟩ := colIdxFrom_eq_some hcol
        refine ⟨{ df with
            rows := df.rows.map (fun r => r.set i (some ((cellAt r i).getD fv))) },
          ?_, rfl, by simp, ?_, ?_⟩
        · simp only [Df.fill_missing_values, List.foldl_cons, hcol]
        · intro r hr
          simp only [List.mem_map] at hr
          obtain ⟨r0, hr0, rfl⟩ := hr
          simpa [List.length_set] using hal r0 hr0
        · intro k j hk hj
          have hrow : (df.rows.map
                (fun r => r.set i (some ((cellAt r i).getD fv)))).getD k [] =
              (df.rows.getD k []).set i
                (some ((cellAt (df.rows.getD k []) i).getD fv)) :=
            getD_map_of_lt _ hk [] []
          show cellAt ((df.rows.map
              (fun r => r.set i (some ((cellAt r i).getD fv)))).getD k []) j = _
          rw [hrow]
          have hrlen : j < (df.rows.getD k []).length := by
            rw [hal _ (getD_mem_of_lt hk)]
            exact hj
          rw [cellAt_set_of_lt _ hrlen]
          by_cases hij : i = j
          · subst hij
            rw [if_pos rfl]
            by_cases hz : cellAt (df.rows.getD k []) i = none
            · rw [hz, if_pos ⟨hic, rfl⟩]
              rfl
            · obtain ⟨v, hv⟩ := Option.ne_none_iff_exists'.mp hz
              rw [hv, if_neg (fun h => Option.noConfusion h.2)]
              rfl
          · rw [if_neg hij]
            have hcj : df.columns.getD j "" ≠ c := by
              intro he
              have h2 := colIdxFrom_of_nodup hnd hj he
              rw [Df.colIdx] at hcol
              rw [hcol] at h2
              exact hij (Option.some_injective _ h2)
            exact (if_neg (fun h => hcj h.1)).symm
    obtain ⟨d', heq, hcols, hlen, hal', hcells⟩ := hstep
    have hnd' : d'.columns.Nodup := hcols ▸ hnd
    obtain ⟨ih1, ih2, ih3⟩ := ih d' hal' hnd'
    refine ⟨by rw [heq, ih1, hcols], by rw [heq, ih2, hlen], ?_⟩
    intro k j hk hj
    have hk' : k < d'.rows.length := by rw [hlen]; exact hk
    have hj' : j < d'.columns.length := by rw [hcols]; exact hj
    have h3 := ih3 k j hk' hj'
    rw [heq, h3, hcols, hcells k j hk hj]
    simp only [List.mem_cons]
    exact fill_compose _ _ _ _

theorem fill_missing_values_absent (df : Df) (cols : List String) (fv : Val)
    (h : ∀ c ∈ cols, c ∉ df.columns) : df.fill_missing_values cols fv = df := by
  induction cols with
  | nil => rfl
  | cons c cs ih =>
    have hc : df.colIdx c = none :=
      colIdxFrom_eq_none.mpr (h c (List.mem_cons_self c cs))
    have h1 : df.fill_missing_values (c :: cs) fv = df.fill_missing_values cs fv := by
      simp only [Df.fill_missing_values, List.foldl_cons, hc]
    rw [h1]
    exact ih (fun c' hc' => h c' (List.mem_cons_of_mem c hc'))

theorem fill_missing_values_columns (df : Df) (cols : List String) (fv : Val) :
    (df.fill_missing_values cols fv).columns = df.columns := by
  induction cols generalizing df with
  | nil => rfl
  | cons c cs ih =>
    cases hc : df.colIdx c with
    | none =>
      have h1 : df.fill_missing_values (c :: cs) fv = df.fill_missing_values cs fv := by
        simp only [Df.fill_missing_values, List.foldl_cons, hc]
      rw [h1]
      exact ih df
    | some i =>
      have h1 : df.fill_missing_values (c :: cs) fv =
          Df.fill_missing_values
            { df with
              rows := df.rows.map (fun r => r.set i (some ((cellAt r i).getD fv))) }
            cs fv := by
        simp only [Df.fill_missing_values, List.foldl_cons, hc]
      rw [h1]
      exact ih _

/-! ## Claim theorems: missing-value filling and schema preservation -/

/-- C7: for every dataset (rectangular, with distinct column labels),
`fill_missing_values(columns, fill_value)` replaces the missing cells of
each named column that is present with the fill value, leaves every
non-missing cell (and every unnamed column) unchanged, and silently skips
named columns that are absent — in particular, when every named column is
absent the dataset is returned entirely unchanged, with no error. -/
theorem fill_missing_values_spec (df : Df) (cols : List String) (fv : Val)
    (hal : df.Aligned) (hnd : df.columns.Nodup) :
    (df.fill_missing_values cols fv).columns = df.columns ∧
    (df.fill_missing_values cols fv).rows.length = df.rows.length ∧
    (∀ k j, k < df.rows.length → j < df.columns.length →
      cellAt ((df.fill_missing_values cols fv).rows.getD k []) j =
        if df.columns.getD j "" ∈ cols ∧ cellAt (df.rows.getD k []) j = none
        then some fv else cellAt (df.rows.getD k []) j) ∧
    ((∀ c ∈ cols, c ∉ df.columns) → df.fill_missing_values cols fv = df) := by
  obtain ⟨h1, h2, h3⟩ := fill_missing_values_cells df cols fv hal hnd
  exact ⟨h1, h2, h3, fill_missing_values_absent df cols fv⟩

def dfFill7 : Df :=
  { columns := ["total_cases", "location"],
    rows := [[none, some (Val.str "A")], [some (Val.int 5), none]] }

theorem fill_missing_values_spec_witness :
    cellAt ((dfFill7.fill_missing_values ["total_cases", "bogus"]
      (Val.int 7)).rows.getD 0 []) 0 = some (Val.int 7) ∧
    cellAt ((dfFill7.fill_missing_values ["total_cases", "bogus"]
      (Val.int 7)).rows.getD 1 []) 1 = none ∧
    (dfFill7.fill_missing_values ["total_cases", "bogus"] (Val.int 7)).columns =
      dfFill7.columns ∧
    dfFill7.fill_missing_values ["bogus"] (Val.int 7) = dfFill7 := by
  refine ⟨?_, ?_, ?_, ?_⟩
  · rw [(fill_missing_values_spec dfFill7 ["total_cases", "bogus"] (Val.int 7)
      (by decide) (by decide)).2.2.1 0 0 (by decide) (by decide)]
    decide
  · rw [(fill_missing_values_spec dfFill7 ["total_cases", "bogus"] (Val.int 7)
      (by decide) (by decide)).2.2.1 1 1 (by decide) (by decide)]
    decide
  · exact (fill_missing_values_spec dfFill7 ["total_cases", "bogus"] (Val.int 7)
      (by decide) (by decide)).1
  · exact (fill_missing_values_spec dfFill7 ["bogus"] (Val.int 7)
      (by decide) (by decide)).2.2.2 (by decide)

/-- C10: `fill_missing_values` invoked without an explicit fill value uses
the Python default parameter `fill_value=0`, so missing cells of the named
present columns become the integer `0`. -/
theorem fill_missing_values_default_spec (df : Df) (cols : List String)
    (hal : df.Aligned) (hnd : df.columns.Nodup) :
    df.fill_missing_values_default cols = df.fill_missing_values cols (Val.int 0) ∧
    ∀ k j, k < df.rows.length → j < df.columns.length →
      cellAt ((df.fill_missing_values_default cols).rows.getD k []) j =
        if df.columns.getD j "" ∈ cols ∧ cellAt (df.rows.getD k []) j = none
        then some (Val.int 0) else cellAt (df.rows.getD k []) j :=
  ⟨rfl, (fill_missing_values_cells df cols (Val.int 0) hal hnd).2.2⟩

def dfFill10 : Df :=
  { columns := ["total_cases"], rows := [[none], [some (Val.int 3)]] }

theorem fill_missing_values_default_spec_witness :
    dfFill10.fill_missing_values_default ["total_cases"] =
      dfFill10.fill_missing_values ["total_cases"] (Val.int 0) ∧
    cellAt ((dfFill10.fill_missing_values_default ["total_cases"]).rows.getD 0 []) 0 =
      some (Val.int 0) ∧
    cellAt ((dfFill10.fill_missing_values_default ["total_cases"]).rows.getD 1 []) 0 =
      some (Val.int 3) := by
  refine ⟨?_, ?_, ?_⟩
  · exact (fill_missing_values_default_spec dfFill10 ["total_cases"]
      (by decide) (by decide)).1
  · rw [(fill_missing_values_default_spec dfFill10 ["total_cases"]
      (by decide) (by decide)).2 0 0 (by decide) (by decide)]
    decide
  · rw [(fill_missing_values_default_spec dfFill10 ["total_cases"]
      (by decide) (by decide)).2 1 0 (by decide) (by decide)]
    decide

/-- C8: `fill_missing_values`, `replace_values`, `sort_data` and
`remove_rows_with_missing_values` (= `drop_empty_rows`) never change the
column list of the dataset — for the two operations that can raise
`KeyError`, every successfully returned dataset has the original columns. -/
theorem schema_preserved (df : Df) (cols : List String) (fv : Val)
    (c col : String) (old new : Val) (asc : Bool) :
    (df.fill_missing_values cols fv).columns = df.columns ∧
    df.remove_rows_with_missing_values.columns = df.columns ∧
    (∀ d', df.replace_values c old new = .ok d' → d'.columns = df.columns) ∧
    (∀ d', df.sort_data col asc = .ok d' → d'.columns = df.columns) := by
  refine ⟨fill_missing_values_columns df cols fv, rfl, ?_, ?_⟩
  · intro d' h
    unfold Df.replace_values at h
    cases hc : df.colIdx c with
    | none =>
      rw [hc] at h
      exact absurd h (by simp)
    | some i =>
      rw [hc] at h
      simp only [Except.ok.injEq] at h
      rw [← h]
  · intro d' h
    unfold Df.sort_data at h
    cases hc : df.colIdx col with
    | none =>
      rw [hc] at h
      exact absurd h (by simp)
    | some ci =>
      rw [hc] at h
      simp only [Except.ok.injEq] at h
      rw [← h]

def dfSchema8 : Df :=
  { columns := ["a"], rows := [[some (Val.int 1)]] }

theorem schema_preserved_witness :
    (dfSchema8.fill_missing_values ["a"] (Val.int 0)).columns = dfSchema8.columns ∧
    dfSchema8.remove_rows_with_missing_values.columns = dfSchema8.columns ∧
    (Df.mk ["a"] [[some (Val.int 2)]]).columns = dfSchema8.columns ∧
    (Df.mk ["a"] [[some (Val.int 1)]]).columns = dfSchema8.columns := by
  have h := schema_preserved dfSchema8 ["a"] (Val.int 0) "a" "a"
    (Val.int 1) (Val.int 2) true
  exact ⟨h.1, h.2.1, h.2.2.1 _ rfl, h.2.2.2 _ rfl⟩

/-- C9: the bulk loader catches any failure of the underlying CSV read
(`except Exception`) and returns the typed optional result: the dataframe
on success, `None` on failure — the exception never propagates. -/
theorem load_data_total_typed (r : Except String Df) :
    (∀ df, r = .ok df → load_data r = some df) ∧
    (∀ e, r = .error e → load_data r = none) := by
  constructor
  · intro df h
    subst h
    rfl
  · intro e h
    subst h
    rfl

theorem load_data_total_typed_witness :
    load_data (.ok (Df.mk ["a"] [])) = some (Df.mk ["a"] []) ∧
    load_data (.error "FileNotFoundError") = none :=
  ⟨(load_data_total_typed _).1 _ rfl, (load_data_total_typed _).2 _ rfl⟩

/-! ## Deduplication -/

theorem dedupAux_cons [DecidableEq α] (seen : List α) (r : α) (rest : List α) :
    dedupAux seen (r :: rest) =
      if r ∈ seen then dedupAux seen rest else r :: dedupAux (r :: seen) rest := rfl

theorem dedupAux_not_mem_seen [DecidableEq α] {seen l : List α} {x : α}
    (hx : x ∈ dedupAux seen l) : x ∉ seen := by
  induction l generalizing seen with
  | nil => simp [dedupAux] at hx
  | cons r rest ih =>
    rw [dedupAux_cons] at hx
    by_cases hr : r ∈ seen
    · rw [if_pos hr] at hx
      exact ih hx
    · rw [if_neg hr] at hx
      rcases List.mem_cons.mp hx with rfl | hx'
      · exact hr
      · intro hxs
        exact (ih hx') (List.mem_cons_of_mem r hxs)

theorem dedupAux_nodup [DecidableEq α] (seen l : List α) :
    (dedupAux seen l).Nodup := by
  induction l generalizing seen with
  | nil => simp [dedupAux]
  | cons r rest ih =>
    rw [dedupAux_cons]
    by_cases hr : r ∈ seen
    · rw [if_pos hr]
      exact ih seen
    · rw [if_neg hr]
      refine List.nodup_cons.mpr ⟨?_, ih (r :: seen)⟩
      intro hmem
      exact (dedupAux_not_mem_seen hmem) (List.mem_cons_self r seen)

theorem dedupAux_of_nodup [DecidableEq α] {l : List α} (hl : l.Nodup) :
    ∀ seen, (∀ x ∈ l, x ∉ seen) → dedupAux seen l = l := by
  induction l with
  | nil => intro seen _; rfl
  | cons r rest ih =>
    intro seen hseen
    rw [dedupAux_cons, if_neg (hseen r (List.mem_cons_self r rest))]
    congr 1
    refine ih (List.nodup_cons.mp hl).2 (r :: seen) ?_
    intro x hx
    rw [List.mem_cons]
    rintro (rfl | hxs)
    · exact (List.nodup_cons.mp hl).1 hx
    · exact hseen x (List.mem_cons_of_mem r hx) hxs

/-- The keep-first scan keeps exactly the elements that do not equal any
earlier element of the input (and are not in `seen`), in input order. -/
theorem decide_cons_skip [DecidableEq α] (x r : α) (S T : List α)
    (h : x = r → x ∈ S) :
    (decide (x ∉ S) && decide (x ∉ T)) = (decide (x ∉ S) && decide (x ∉ r :: T)) := by
  by_cases hS : x ∈ S
  · simp [hS]
  · have hxr : x ≠ r := fun he => hS (h he)
    simp [hS, hxr, List.mem_cons]

theorem decide_cons_swap [DecidableEq α] (x r : α) (S T : List α) :
    (decide (x ∉ r :: S) && decide (x ∉ T)) = (decide (x ∉ S) && decide (x ∉ r :: T)) := by
  by_cases h1 : x = r <;> by_cases h2 : x ∈ S <;> by_cases h3 : x ∈ T <;>
    simp [h1, h2, h3, List.mem_cons]

theorem dedupAux_eq_filter [DecidableEq α] (d : α) (l : List α) :
    ∀ seen, dedupAux seen l =
      ((List.range l.length).filter
        (fun k => decide (l.getD k d ∉ seen) && decide (l.getD k d ∉ l.take k))).map
        (fun k => l.getD k d) := by
  induction l with
  | nil => intro seen; rfl
  | cons r rest ih =>
    intro seen
    have hlen : (r :: rest).length = rest.length + 1 := rfl
    rw [hlen, List.range_succ_eq_map, dedupAux_cons]
    rw [List.filter_cons, List.filter_map]
    have hcond0 : (decide ((r :: rest).getD 0 d ∉ seen) &&
        decide ((r :: rest).getD 0 d ∉ (r :: rest).take 0)) = decide (r ∉ seen) := by
      simp
    rw [hcond0]
    by_cases hr : r ∈ seen
    · rw [if_pos hr]
      have hd : decide (r ∉ seen) = false := by simp [hr]
      rw [hd]
      simp only [Bool.false_eq_true, if_false]
      rw [ih seen, List.map_map]
      have hcong : ∀ k ∈ List.range rest.length,
          (decide (rest.getD k d ∉ seen) && decide (rest.getD k d ∉ rest.take k)) =
          ((fun k => decide ((r :: rest).getD k d ∉ seen) &&
            decide ((r :: rest).getD k d ∉ (r :: rest).take k)) ∘ Nat.succ) k := by
        intro k _
        show _ = (decide ((r :: rest).getD (k + 1) d ∉ seen) &&
          decide ((r :: rest).getD (k + 1) d ∉ (r :: rest).take (k + 1)))
        rw [List.getD_cons_succ, List.take_succ_cons]
        exact decide_cons_skip (rest.getD k d) r seen (rest.take k) (fun he => he ▸ hr)
      rw [List.filter_congr hcong]
      refine List.map_congr_left ?_
      intro k _
      show rest.getD k d = (r :: rest).getD (k + 1) d
      exact (List.getD_cons_succ).symm
    · rw [if_neg hr]
      have hd : decide (r ∉ seen) = true := by simp [hr]
      rw [hd]
      simp only [if_true]
      rw [ih (r :: seen), List.map_cons, List.map_map]
      congr 1
      have hcong : ∀ k ∈ List.range rest.length,
          (decide (rest.getD k d ∉ r :: seen) && decide (rest.getD k d ∉ rest.take k)) =
          ((fun k => decide ((r :: rest).getD k d ∉ seen) &&
            decide ((r :: rest).getD k d ∉ (r :: rest).take k)) ∘ Nat.succ) k := by
        intro k _
        show _ = (decide ((r :: rest).getD (k + 1) d ∉ seen) &&
          decide ((r :: rest).getD (k + 1) d ∉ (r :: rest).take (k + 1)))
        rw [List.getD_cons_succ, List.take_succ_cons]
        exact decide_cons_swap (rest.getD k d) r seen (rest.take k)
      rw [List.filter_congr hcong]
      refine List.map_congr_left ?_
      intro k _
      show rest.getD k d = (r :: rest).getD (k + 1) d
      exact (List.getD_cons_succ).symm

/-- C5: `remove_duplicate_rows` keeps exactly the rows that are not
value-identical to an earlier row, in their original order (so the first
occurrence of each duplicate group survives and rows differing in at
least one cell are both retained), never touches the columns, and is
idempotent. -/
theorem remove_duplicate_rows_spec (df : Df) :
    df.remove_duplicate_rows.rows =
      ((List.range df.rows.length).filter
        (fun k => decide (df.rows.getD k [] ∉ df.rows.take k))).map
        (fun k => df.rows.getD k []) ∧
    df.remove_duplicate_rows.columns = df.columns ∧
    df.remove_duplicate_rows.remove_duplicate_rows = df.remove_duplicate_rows := by
  refine ⟨?_, rfl, ?_⟩
  · show dedupAux [] df.rows = _
    rw [dedupAux_eq_filter [] df.rows []]
    congr 1
    apply List.filter_congr
    intro k _
    simp
  · show Df.mk df.columns (dedupAux [] (dedupAux [] df.rows)) =
      Df.mk df.columns (dedupAux [] df.rows)
    rw [dedupAux_of_nodup (dedupAux_nodup [] df.rows) []
      (fun x _ hx => List.not_mem_nil x hx)]

/-! ## Series maxima -/

theorem Val.lt_of_lt_of_nlt {a b c : Val} (h1 : Val.lt a b = true)
    (h2 : Val.lt c b = false) : Val.lt a c = true := by
  cases hac : Val.lt a c with
  | true => rfl
  | false =>
    exfalso
    cases hca : Val.lt c a with
    | false =>
      have hEq := Val.lt_connex hac hca
      rw [hEq, h2] at h1
      exact absurd h1 (by simp)
    | true =>
      have h3 := Val.lt_trans hca h1
      rw [h2] at h3
      exact absurd h3 (by simp)

theorem seriesMax_fold_spec (l : List Val) :
    ∀ acc v, l.foldl (fun acc v => match acc with
        | none => some v
        | some m => some (if Val.lt m v then v else m)) acc = some v →
      (acc = some v ∨ v ∈ l) ∧ (∀ w ∈ l, Val.lt v w = false) ∧
      (∀ m, acc = some m → Val.lt v m = false) := by
  induction l with
  | nil =>
    intro acc v h
    simp only [List.foldl_nil] at h
    refine ⟨Or.inl h, by simp, ?_⟩
    intro m hm
    rw [h] at hm
    obtain rfl : v = m := Option.some_injective _ hm
    exact Val.lt_irrefl v
  | cons x xs ih =>
    intro acc v h
    rw [List.foldl_cons] at h
    obtain ⟨h1, h2, h3⟩ := ih _ v h
    cases acc with
    | none =>
      refine ⟨?_, ?_, by simp⟩
      · rcases h1 with he | hmem
        · have hvx := Option.some_injective _ he
          exact Or.inr (by rw [hvx]; exact List.mem_cons_self v xs)
        · exact Or.inr (List.mem_cons_of_mem x hmem)
      · intro u hu
        rcases List.mem_cons.mp hu with rfl | hu'
        · exact h3 u rfl
        · exact h2 u hu'
    | some m0 =>
      have h3y := h3 (if Val.lt m0 x then x else m0) rfl
      refine ⟨?_, ?_, ?_⟩
      · rcases h1 with he | hmem
        · have hvy := Option.some_injective _ he
          by_cases hmx : Val.lt m0 x = true
          · rw [if_pos hmx] at hvy
            exact Or.inr (by rw [hvy]; exact List.mem_cons_self v xs)
          · rw [if_neg hmx] at hvy
            exact Or.inl (by rw [hvy])
        · exact Or.inr (List.mem_cons_of_mem x hmem)
      · intro u hu
        rcases List.mem_cons.mp hu with rfl | hu'
        · by_cases hmx : Val.lt m0 u = true
          · rw [if_pos hmx] at h3y
            exact h3y
          · have hmx' : Val.lt m0 u = false := by
              cases hx : Val.lt m0 u
              · rfl
              · exact absurd hx hmx
            rw [if_neg hmx] at h3y
            cases hvx : Val.lt v u with
            | false => rfl
            | true =>
              have := Val.lt_of_lt_of_nlt hvx hmx'
              rw [h3y] at this
              exact absurd this (by simp)
        · exact h2 u hu'
      · intro m hm
        obtain rfl : m0 = m := Option.some_injective _ hm
        by_cases hmx : Val.lt m0 x = true
        · rw [if_pos hmx] at h3y
          cases hvm : Val.lt v m0 with
          | false => rfl
          | true =>
            have := Val.lt_trans hvm hmx
            rw [h3y] at this
            exact absurd this (by simp)
        · rw [if_neg hmx] at h3y
          exact h3y

theorem seriesMax_fold_none (l : List Val) :
    ∀ acc, l.foldl (fun acc v => match acc with
        | none => some v
        | some m => some (if Val.lt m v then v else m)) acc = none ↔
      (acc = none ∧ l = []) := by
  induction l with
  | nil => intro acc; simp
  | cons x xs ih =>
    intro acc
    rw [List.foldl_cons, ih]
    cases acc <;> simp

/-- The result of `Series.max()` characterised against its input: `none`
exactly when every cell is missing, otherwise an attained upper bound of
the non-missing cells. -/
def IsMaxOf (m : Option Val) (cells : List (Option Val)) : Prop :=
  (m = none ↔ ∀ x ∈ cells, x = none) ∧
  ∀ v, m = some v →
    some v ∈ cells ∧ ∀ u, some u ∈ cells → Val.lt v u = false

theorem seriesMax_isMaxOf (cells : List (Option Val)) :
    IsMaxOf (seriesMax cells) cells := by
  constructor
  · rw [show seriesMax cells = (cells.filterMap id).foldl _ none from rfl,
      seriesMax_fold_none (cells.filterMap id) none]
    simp only [true_and]
    rw [List.filterMap_eq_nil_iff]
    constructor
    · intro h x hx
      cases hxv : x with
      | none => rfl
      | some v => exact absurd (hxv ▸ h x hx) (by simp)
    · intro h x hx
      rw [h x hx]
      rfl
  · intro v hv
    obtain ⟨h1, h2, _⟩ := seriesMax_fold_spec (cells.filterMap id) none v hv
    constructor
    · rcases h1 with he | hmem
      · exact absurd he (by simp)
      · obtain ⟨a, ha, hav⟩ := List.mem_filterMap.mp hmem
        rw [show a = some v from hav] at ha
        exact ha
    · intro u hu
      exact h2 u (List.mem_filterMap.mpr ⟨some u, hu, rfl⟩)

/-- C1: `country_specific_summary(iso_code)` returns, for each of the
three measures, the maximum observed (non-missing) value over the rows
whose `iso_code` equals the argument, and `None`/`NaN` — never `0` — when
no row matches or the measure is entirely missing on that subset. -/
theorem country_specific_summary_max (df : Df) (code : Val) (i c d w : Nat)
    (hi : df.colIdx "iso_code" = some i) (hc : df.colIdx "total_cases" = some c)
    (hd : df.colIdx "total_deaths" = some d)
    (hw : df.colIdx "total_vaccinations" = some w) :
    ∃ s, df.country_specific_summary code = .ok s ∧
      IsMaxOf s.totalCases
        ((df.rows.filter (fun r => cellAt r i = some code)).map (fun r => cellAt r c)) ∧
      IsMaxOf s.totalDeaths
        ((df.rows.filter (fun r => cellAt r i = some code)).map (fun r => cellAt r d)) ∧
      IsMaxOf s.totalVaccinations
        ((df.rows.filter (fun r => cellAt r i = some code)).map (fun r => cellAt r w)) := by
  have heq : df.country_specific_summary code = .ok
      { totalCases := seriesMax
          ((df.rows.filter (fun r => cellAt r i = some code)).map (fun r => cellAt r c)),
        totalDeaths := seriesMax
          ((df.rows.filter (fun r => cellAt r i = some code)).map (fun r => cellAt r d)),
        totalVaccinations := seriesMax
          ((df.rows.filter (fun r => cellAt r i = some code)).map (fun r => cellAt r w)) } := by
    simp only [Df.country_specific_summary, hi, hc, hd, hw]
  exact ⟨_, heq, seriesMax_isMaxOf _, seriesMax_isMaxOf _, seriesMax_isMaxOf _⟩

def dfC1 : Df :=
  { columns := ["iso_code", "total_cases", "total_deaths", "total_vaccinations"],
    rows := [[some (Val.str "X"), some (Val.int 5), none, none],
             [some (Val.str "X"), some (Val.int 9), none, some (Val.int 2)],
             [some (Val.str "Y"), some (Val.int 3), some (Val.int 1), some (Val.int 7)]] }

theorem country_specific_summary_max_witness :
    ∃ s, dfC1.country_specific_summary (Val.str "X") = .ok s ∧
      IsMaxOf s.totalCases
        ((dfC1.rows.filter (fun r => cellAt r 0 = some (Val.str "X"))).map
          (fun r => cellAt r 1)) ∧
      IsMaxOf s.totalDeaths
        ((dfC1.rows.filter (fun r => cellAt r 0 = some (Val.str "X"))).map
          (fun r => cellAt r 2)) ∧
      IsMaxOf s.totalVaccinations
        ((dfC1.rows.filter (fun r => cellAt r 0 = some (Val.str "X"))).map
          (fun r => cellAt r 3)) :=
  country_specific_summary_max dfC1 (Val.str "X") 0 1 2 3 rfl rfl rfl rfl

/-! ## Scraper row extraction -/

theorem processRow_ok {cols : List String} (h : 15 ≤ cols.length) :
    ∃ out, processRow cols = .ok out ∧ out.length = 11 := by
  have h12 : 12 < cols.length := by omega
  have h14 : 14 < cols.length := by omega
  unfold processRow
  rw [show cols.get? 12 = some cols[12] from by
    rw [List.get?_eq_getElem?]; exact List.getElem?_eq_getElem h12]
  rw [show cols.get? 14 = some cols[14] from by
    rw [List.get?_eq_getElem?]; exact List.getElem?_eq_getElem h14]
  refine ⟨_, rfl, ?_⟩
  simp only [List.length_append, List.length_take, List.length_drop,
    List.length_cons, List.length_nil]
  omega

theorem processRow_err {cols : List String} (h : cols.length < 15) :
    processRow cols = .error PyErr.indexError := by
  unfold processRow
  by_cases h12 : cols.length ≤ 12
  · rw [show cols.get? 12 = none from by
      rw [List.get?_eq_getElem?]; exact List.getElem?_eq_none h12]
  · have h12' : 12 < cols.length := by omega
    rw [show cols.get? 12 = some cols[12] from by
      rw [List.get?_eq_getElem?]; exact List.getElem?_eq_getElem h12']
    rw [show cols.get? 14 = none from by
      rw [List.get?_eq_getElem?]; exact List.getElem?_eq_none (by omega)]

theorem fetchRows_ok (l : List (List String)) (h : ∀ r ∈ l, 15 ≤ r.length) :
    ∃ out, l.mapM processRow = .ok out ∧ out.length = l.length ∧
      ∀ o ∈ out, o.length = 11 := by
  induction l with
  | nil => exact ⟨[], rfl, rfl, by simp⟩
  | cons r rest ih =>
    obtain ⟨o, ho, holen⟩ := processRow_ok (h r (List.mem_cons_self r rest))
    obtain ⟨out, hout, hlen, hall⟩ := ih (fun r' hr' => h r' (List.mem_cons_of_mem r hr'))
    refine ⟨o :: out, ?_, by simp [hlen], ?_⟩
    · rw [List.mapM_cons, ho, hout]
      rfl
    · intro o' ho'
      rcases List.mem_cons.mp ho' with rfl | h'
      · exact holen
      · exact hall o' h'

theorem fetchRows_err (l : List (List String)) (h : ∃ r ∈ l, r.length < 15) :
    l.mapM processRow = .error PyErr.indexError := by
  induction l with
  | nil =>
    obtain ⟨r, hr, _⟩ := h
    cases hr
  | cons r rest ih =>
    by_cases hr15 : r.length < 15
    · rw [List.mapM_cons, processRow_err hr15]
      rfl
    · obtain ⟨r', hr', hlen⟩ := h
      rcases List.mem_cons.mp hr' with rfl | hmem
      · exact absurd hlen hr15
      · obtain ⟨o, ho, _⟩ := processRow_ok (by omega : 15 ≤ r.length)
        rw [List.mapM_cons, ho, ih ⟨r', hmem, hlen⟩]
        rfl

/-- C4 (amended): a selected table row with at least 15 cells contributes
exactly one 11-field record; as soon as any selected row has fewer than 15
cells (`cols[12]`/`cols[14]` out of range — in particular a row with
`expected_columns - 1 = 10` cells), the whole extraction fails with the
bare Python `IndexError`, which carries no row index and no shortfall; no
record is emitted for the short row and it is never silently dropped or
padded. -/
theorem fetch_data_short_row (tableRows : List (List String)) :
    ((∀ r ∈ (tableRows.drop 8).take 221, 15 ≤ r.length) →
      ∃ out, fetch_data tableRows = .ok out ∧
        out.length = ((tableRows.drop 8).take 221).length ∧
        ∀ o ∈ out, o.length = field_list.length) ∧
    ((∃ r ∈ (tableRows.drop 8).take 221, r.length < 15) →
      fetch_data tableRows = .error PyErr.indexError) := by
  constructor
  · intro h
    obtain ⟨out, h1, h2, h3⟩ := fetchRows_ok _ h
    exact ⟨out, h1, h2, fun o ho => (h3 o ho).trans rfl⟩
  · intro h
    exact fetchRows_err _ h

def rowsShortA : List (List String) :=
  List.replicate 8 (List.replicate 15 "x") ++ [List.replicate 10 "y"]

def rowsShortB : List (List String) :=
  List.replicate 8 (List.replicate 15 "x") ++
    [List.replicate 15 "x", List.replicate 14 "z"]

/-- C4 counterexample: a selected row with 10 cells (one fewer than the 11
expected columns) at selected index 0 and a selected row with 14 cells at
selected index 1 abort extraction with the IDENTICAL payload-free
`IndexError`: the error the code raises is not an `ExtractError` and names
neither the failing row's index nor the shortfall. -/
theorem fetch_data_indexerror_unnamed :
    fetch_data rowsShortA = .error PyErr.indexError ∧
    fetch_data rowsShortB = .error PyErr.indexError := by
  constructor
  · rfl
  · rfl

def rowsOk4 : List (List String) :=
  List.replicate 9 (List.replicate 15 "x")

theorem fetch_data_short_row_witness :
    (∃ out, fetch_data rowsOk4 = .ok out ∧
      out.length = ((rowsOk4.drop 8).take 221).length ∧
      ∀ o ∈ out, o.length = field_list.length) ∧
    fetch_data rowsShortA = .error PyErr.indexError :=
  ⟨(fetch_data_short_row rowsOk4).1 (by decide),
   (fetch_data_short_row rowsShortA).2 ⟨List.replicate 10 "y", by decide, by decide⟩⟩

/-! ## Trend over time -/

/-- The (date, value) sequence is ordered ascending by date: no pair's
date strictly precedes the date of an earlier pair. -/
def DateAscending (l : List (Option Val × Option Val)) : Prop :=
  l.Pairwise (fun p q => ∀ a b, p.1 = some a → q.1 = some b → Val.lt b a = false)

/-- C6 (amended): `trend_over_time(iso_code, measure)` returns the
(date, value) pairs of exactly the rows whose `iso_code` matches, in the
dataset's original row order — the projected date sequence is a
subsequence of the dataset's date column; no sort by date is performed. -/
theorem trend_over_time_order (df : Df) (code : Val) (measure : String)
    (i di mi : Nat) (hi : df.colIdx "iso_code" = some i)
    (hd : df.colIdx "date" = some di) (hm : df.colIdx measure = some mi) :
    df.trend_over_time code measure = .ok
      ((df.rows.filter (fun r => cellAt r i = some code)).map
        (fun r => (cellAt r di, cellAt r mi))) ∧
    List.Sublist
      (((df.rows.filter (fun r => cellAt r i = some code)).map
        (fun r => (cellAt r di, cellAt r mi))).map Prod.fst)
      (df.rows.map (fun r => cellAt r di)) := by
  constructor
  · simp only [Df.trend_over_time, hi, hd, hm]
  · rw [List.map_map]
    exact (List.filter_sublist df.rows).map _

def dfTrend : Df :=
  { columns := ["iso_code", "date", "total_cases"],
    rows := [[some (Val.str "X"), some (Val.int 2), some (Val.int 10)],
             [some (Val.str "X"), some (Val.int 1), some (Val.int 20)]] }

/-- C6 counterexample: with the matching rows stored in descending date
order, the trend comes back in that same order, not ascending by date. -/
theorem trend_over_time_not_sorted :
    dfTrend.trend_over_time (Val.str "X") "total_cases" =
      .ok [(some (Val.int 2), some (Val.int 10)),
           (some (Val.int 1), some (Val.int 20))] ∧
    ¬ DateAscending [(some (Val.int 2), some (Val.int 10)),
                     (some (Val.int 1), some (Val.int 20))] := by
  constructor
  · rfl
  · intro h
    have h2 := (List.pairwise_cons.mp h).1 _
      (List.mem_cons_self _ _) (Val.int 2) (Val.int 1) rfl rfl
    exact absurd h2 (by decide)

theorem trend_over_time_order_witness :
    dfTrend.trend_over_time (Val.str "X") "total_cases" = .ok
      ((dfTrend.rows.filter (fun r => cellAt r 0 = some (Val.str "X"))).map
        (fun r => (cellAt r 1, cellAt r 2))) ∧
    List.Sublist
      (((dfTrend.rows.filter (fun r => cellAt r 0 = some (Val.str "X"))).map
        (fun r => (cellAt r 1, cellAt r 2))).map Prod.fst)
      (dfTrend.rows.map (fun r => cellAt r 1)) :=
  trend_over_time_order dfTrend (Val.str "X") "total_cases" 0 1 2 rfl rfl rfl

/-! ## Sorting: the claim theorems -/

/-- C2 (amended): for datasets of at most 16 rows — where numpy's introsort
reduces to its stable insertion sort — a single-column `sort_data` succeeds
and is a stable sort: the returned rows are the original rows reindexed by
a permutation of all row positions ordered by the key column (ascending or
descending per the flag, missing keys last) in which tied rows keep their
original relative order. -/
theorem sort_data_stable_small (df : Df) (c : String) (ci : Nat) (asc : Bool)
    (hci : df.colIdx c = some ci) (h16 : df.rows.length ≤ 16) :
    df.sort_data c asc = .ok
      { columns := df.columns,
        rows := (df.sortIndexer ci asc).map (fun i => df.rows.getD i []) } ∧
    (df.sortIndexer ci asc).Pairwise (SortedKey df ci asc) ∧
    (df.sortIndexer ci asc).Perm (List.range df.rows.length) := by
  obtain ⟨h1, h2⟩ := sortIndexer_small_sorted df ci asc h16
  refine ⟨?_, h1, h2⟩
  simp only [Df.sort_data, hci]

def dfSortW : Df :=
  { columns := ["k", "id"],
    rows := [[some (Val.int 1), some (Val.int 0)],
             [some (Val.int 0), some (Val.int 1)],
             [some (Val.int 1), some (Val.int 2)]] }

theorem sort_data_stable_small_witness :
    dfSortW.sort_data "k" true = .ok
      { columns := dfSortW.columns,
        rows := (dfSortW.sortIndexer 0 true).map (fun i => dfSortW.rows.getD i []) } ∧
    (dfSortW.sortIndexer 0 true).Pairwise (SortedKey dfSortW 0 true) ∧
    (dfSortW.sortIndexer 0 true).Perm (List.range dfSortW.rows.length) :=
  sort_data_stable_small dfSortW "k" 0 true rfl (by decide)

/-- Rows with a constant sort key and a distinguishing `id` cell. -/
def constKeyRows (l : List Nat) : List Row :=
  l.map (fun i => [some (Val.int 0), some (Val.int (Int.ofNat i))])

def df17 : Df :=
  { columns := ["k", "id"], rows := constKeyRows (List.range 17) }

def perm17 : List Nat := [0, 14, 13, 12, 11, 10, 9, 15, 8, 6, 5, 4, 3, 2, 1, 7, 16]

/-- C2 counterexample: sorting 17 rows whose sort-key column is constant
must, were the sort stable, return the rows unchanged; the default
quicksort partitions the 17 tied elements and hands back a permuted
order. -/
theorem sort_data_unstable_17 :
    df17.sort_data "k" true = .ok
      { columns := ["k", "id"], rows := constKeyRows perm17 } ∧
    constKeyRows perm17 ≠ df17.rows := by
  constructor
  · rfl
  · decide

/-! ## Top-N queries -/

theorem dedupAux_mem_of [DecidableEq α] {seen l : List α} {x : α}
    (hx : x ∈ dedupAux seen l) : x ∈ l := by
  induction l generalizing seen with
  | nil => simp [dedupAux] at hx
  | cons r rest ih =>
    rw [dedupAux_cons] at hx
    by_cases hr : r ∈ seen
    · rw [if_pos hr] at hx
      exact List.mem_cons_of_mem r (ih hx)
    · rw [if_neg hr] at hx
      rcases List.mem_cons.mp hx with rfl | hx'
      · exact List.mem_cons_self _ _
      · exact List.mem_cons_of_mem r (ih hx')

theorem pairwise_filterMap_of (f : α → Option β) {R : α → α → Prop}
    {S : β → β → Prop}
    (hf : ∀ a a' b b', f a = some b → f a' = some b' → R a a' → S b b')
    {l : List α} (hl : l.Pairwise R) : (l.filterMap f).Pairwise S := by
  induction l with
  | nil => simp
  | cons x xs ih =>
    rcases List.pairwise_cons.mp hl with ⟨hx, hxs⟩
    cases hfx : f x with
    | none =>
      rw [List.filterMap_cons, hfx]
      exact ih hxs
    | some b =>
      rw [List.filterMap_cons, hfx]
      refine List.pairwise_cons.mpr ⟨?_, ih hxs⟩
      intro b' hb'
      obtain ⟨a', ha', hfa'⟩ := List.mem_filterMap.mp hb'
      exact hf x a' b b' hfx hfa' (hx a' ha')

/-- Descending order by value with ties broken by strictly ascending
(alphabetically smaller first) location: what a correctly ordered top-N
result satisfies pairwise. -/
def TopOrder (a b : Val × Val) : Prop :=
  Val.lt b.2 a.2 = true ∨ (a.2 = b.2 ∧ Val.lt a.1 b.1 = true)

theorem val_htr : ∀ a b c : Val, Val.lt a b = true → Val.lt b c = true →
    Val.lt a c = true :=
  fun _ _ _ => Val.lt_trans

theorem val_htie : ∀ a b : Val, Val.lt a b = false → Val.lt b a = false →
    ∀ c, Val.lt c a = Val.lt c b ∧ Val.lt a c = Val.lt b c := by
  intro a b h1 h2 c
  rw [Val.lt_connex h1 h2]
  exact ⟨rfl, rfl⟩

/-- Sorting a duplicate-free value list gives a strictly increasing list
(the `groupby(sort=True)` key order). -/
theorem sortBy_val_strict {l : List Val} (hl : l.Nodup) :
    (sortBy Val.lt l).Pairwise (fun a b => Val.lt a b = true) := by
  have h := sortBy_pairwise val_htr val_htie hl
  refine h.imp ?_
  intro a b hab
  rcases hab with hlt | ⟨h1, h2, hne⟩
  · exact hlt
  · exact absurd (Val.lt_connex h1 h2) hne

theorem pair_htr : ∀ a b c : Val × Val, Val.lt b.2 a.2 = true →
    Val.lt c.2 b.2 = true → Val.lt c.2 a.2 = true :=
  fun _ _ _ h1 h2 => Val.lt_trans h2 h1

theorem pair_htie : ∀ a b : Val × Val, Val.lt b.2 a.2 = false →
    Val.lt a.2 b.2 = false →
    ∀ c : Val × Val,
      Val.lt a.2 c.2 = Val.lt b.2 c.2 ∧ Val.lt c.2 a.2 = Val.lt c.2 b.2 := by
  intro a b h1 h2 c
  rw [Val.lt_connex h2 h1]
  exact ⟨rfl, rfl⟩

/-- The per-location maxima list is strictly ascending in the location:
`groupby(sort=True)` keys are sorted and duplicate-free. -/
theorem groupMax_pairwise (df : Df) (li mi : Nat) :
    (df.groupMaxByLocation li mi).Pairwise (fun p q => Val.lt p.1 q.1 = true) := by
  unfold Df.groupMaxByLocation
  rw [List.pairwise_map]
  exact sortBy_val_strict (dedupAux_nodup [] _)

/-- Dropping the locations with missing maxima keeps the candidate list
strictly ascending in the location. -/
theorem cand_pairwise (df : Df) (li mi : Nat) :
    ((df.groupMaxByLocation li mi).filterMap
      (fun p => p.2.map (fun v => (p.1, v)))).Pairwise
      (fun p q => Val.lt p.1 q.1 = true) := by
  refine pairwise_filterMap_of _ ?_ (groupMax_pairwise df li mi)
  intro a a' b b' hb hb' hR
  cases ha2 : a.2 with
  | none =>
    rw [ha2] at hb
    exact absurd hb (by simp)
  | some v =>
    rw [ha2] at hb
    cases ha2' : a'.2 with
    | none =>
      rw [ha2'] at hb'
      exact absurd hb' (by simp)
    | some v' =>
      rw [ha2'] at hb'
      have hb1 : b = (a.1, v) := by simpa using hb.symm
      have hb1' : b' = (a'.1, v') := by simpa using hb'.symm
      rw [hb1, hb1']
      exact hR

/-- Every candidate pair is a true (location, per-location maximum) for a
location observed in the dataset. -/
theorem mem_cand_spec (df : Df) (li mi : Nat) (pr : Val × Val)
    (h : pr ∈ (df.groupMaxByLocation li mi).filterMap
      (fun p => p.2.map (fun v => (p.1, v)))) :
    seriesMax ((df.rows.filter (fun r => cellAt r li = some pr.1)).map
      (fun r => cellAt r mi)) = some pr.2 ∧
    ∃ r ∈ df.rows, cellAt r li = some pr.1 := by
  obtain ⟨p, hp, hfp⟩ := List.mem_filterMap.mp h
  cases hp2 : p.2 with
  | none =>
    rw [hp2] at hfp
    exact absurd hfp (by simp)
  | some v =>
    rw [hp2] at hfp
    have hpr1 : pr = (p.1, v) := by simpa using hfp.symm
    unfold Df.groupMaxByLocation at hp
    obtain ⟨k, hk, hkp⟩ := List.mem_map.mp hp
    have hk1 : p.1 = k := by rw [← hkp]
    have hk2 : seriesMax ((df.rows.filter
        (fun r => cellAt r li = some k)).map (fun r => cellAt r mi)) = p.2 := by
      rw [← hkp]
    constructor
    · rw [hpr1]
      show seriesMax ((df.rows.filter
        (fun r => cellAt r li = some p.1)).map (fun r => cellAt r mi)) = some v
      rw [hk1, hk2, hp2]
    · have hkmem := (sortBy_perm Val.lt _).mem_iff.mp hk
      obtain ⟨r, hr, hcr⟩ := List.mem_filterMap.mp (dedupAux_mem_of hkmem)
      refine ⟨r, hr, ?_⟩
      rw [hpr1]
      show cellAt r li = some p.1
      rw [hk1]
      exact hcr

/-- On at most 16 entries the slow-path descending `sort_values` reduces
to the stable insertion sort: the result is a permutation of the input
ordered by `TopOrder` (descending value, ties in the original — here
alphabetical — order). -/
theorem seriesSortDesc_small {l : List (Val × Val)} (h16 : l.length ≤ 16)
    (hA : l.Pairwise (fun p q => Val.lt p.1 q.1 = true)) :
    (seriesSortDesc l).Pairwise TopOrder ∧ (seriesSortDesc l).Perm l := by
  set d : Val × Val := (Val.int 0, Val.int 0) with hd
  set idxs := (List.range l.length).reverse with hidxs
  set v : Nat → Val := fun p => (l.getD (idxs.getD p 0) d).2 with hv
  have hdef : seriesSortDesc l =
      (((npArgsort (fun p q => Val.lt (v p) (v q)) l.length).map
        (fun p => idxs.getD p 0)).reverse).map (fun i => l.getD i d) := rfl
  have hlen : idxs.length = l.length := by
    rw [hidxs, List.length_reverse, List.length_range]
  have hidxsGt : idxs.Pairwise (fun a b => b < a) := by
    rw [hidxs]
    exact List.pairwise_reverse.mpr (List.pairwise_lt_range _)
  have hidxspos : ∀ {p : Nat}, p < l.length → idxs.getD p 0 < l.length := by
    intro p hp
    have hmem : idxs.getD p 0 ∈ idxs := getD_mem_of_lt (by rw [hlen]; exact hp)
    rw [hidxs, List.mem_reverse, List.mem_range] at hmem
    exact hmem
  have hperm := npArgsort_perm (fun p q => Val.lt (v p) (v q))
    (show l.length ≤ 16 from h16)
  have hpw := npArgsort_pairwise v (show l.length ≤ 16 from h16)
  constructor
  · rw [hdef, List.pairwise_map, List.pairwise_reverse, List.pairwise_map]
    refine hpw.imp_of_mem ?_
    intro p q hp hq hrel
    have hpk : p < l.length := npArgsort_mem h16 hp
    have hqk : q < l.length := npArgsort_mem h16 hq
    rcases hrel with hlt | ⟨heq, hpq⟩
    · exact Or.inl hlt
    · have hgt : idxs.getD q 0 < idxs.getD p 0 :=
        pairwise_getD_of_lt hidxsGt hpq (by rw [hlen]; exact hqk)
      exact Or.inr ⟨heq.symm, pairwise_getD_of_lt hA hgt (hidxspos hpk)⟩
  · rw [hdef]
    refine ((List.reverse_perm _).map _).trans ?_
    have h1 : ((npArgsort (fun p q => Val.lt (v p) (v q)) l.length).map
        (fun p => idxs.getD p 0)).Perm idxs := by
      have h2 := hperm.map (fun p => idxs.getD p 0)
      have h3 : (List.range l.length).map (fun p => idxs.getD p 0) = idxs := by
        rw [← hlen]
        exact map_getD_range idxs 0
      rwa [h3] at h2
    refine (h1.map _).trans ?_
    have h5 : idxs.map (fun i => l.getD i d) =
        ((List.range l.length).map (fun i => l.getD i d)).reverse := by
      rw [hidxs, List.map_reverse]
    rw [h5, map_getD_range l d]
    exact List.reverse_perm l

/-- C3 (amended): each top-N query groups by location (keys sorted
ascending, missing locations dropped), takes the per-location maximum of
the measure, drops locations whose maximum is missing, and hands the
result to `nlargest`.  A non-positive `n` yields an empty ok result — no
`InvalidArgumentError` exists in the code.  Whenever `0 < n` and either
`n` is below the number of distinct locations (`nlargest`'s stable
mergesort fast path) or at most 16 maxima survive (the slow path's
re-sort reduces to the stable insertion sort), the result consists of
true (location, per-location maximum) pairs of observed locations,
descending in the measure with ties broken by the alphabetically smaller
location — not by first encounter in the dataset.  With `n` at least the
number of locations and 17 or more surviving maxima, the slow path's
unstable quicksort can instead scramble the tie order. -/
theorem highestBy_spec (df : Df) (measure : String) (n : Int) (li mi : Nat)
    (hloc : df.colIdx "location" = some li) (hm : df.colIdx measure = some mi) :
    (df.highest_case_countries n = df.highestBy "total_cases" n ∧
     df.highest_death_countries n = df.highestBy "total_deaths" n ∧
     df.highest_vaccination_countries n = df.highestBy "total_vaccinations" n) ∧
    (n ≤ 0 → df.highestBy measure n = .ok []) ∧
    (0 < n →
      (n < ((df.groupMaxByLocation li mi).length : Int) ∨
        ((df.groupMaxByLocation li mi).filterMap
          (fun p => p.2.map (fun v => (p.1, v)))).length ≤ 16) →
      ∃ out, df.highestBy measure n = .ok out ∧
        out.Pairwise TopOrder ∧
        out.length = min n.toNat
          ((df.groupMaxByLocation li mi).filterMap
            (fun p => p.2.map (fun v => (p.1, v)))).length ∧
        ∀ pr ∈ out,
          seriesMax ((df.rows.filter (fun r => cellAt r li = some pr.1)).map
            (fun r => cellAt r mi)) = some pr.2 ∧
          ∃ r ∈ df.rows, cellAt r li = some pr.1) := by
  refine ⟨⟨rfl, rfl, rfl⟩, ?_, ?_⟩
  · intro hn
    have hemp : nlargestPairs n (df.groupMaxByLocation li mi).length
        ((df.groupMaxByLocation li mi).filterMap
          (fun p => p.2.map (fun v => (p.1, v)))) = [] := by
      unfold nlargestPairs
      rw [if_pos hn]
    simp only [Df.highestBy, hloc, hm, hemp]
  · intro hn hcase
    have hok : df.highestBy measure n = .ok (nlargestPairs n
        (df.groupMaxByLocation li mi).length
        ((df.groupMaxByLocation li mi).filterMap
          (fun p => p.2.map (fun v => (p.1, v))))) := by
      simp only [Df.highestBy, hloc, hm]
    by_cases hslow : ((df.groupMaxByLocation li mi).length : Int) ≤ n
    · have h16 : ((df.groupMaxByLocation li mi).filterMap
          (fun p => p.2.map (fun v => (p.1, v)))).length ≤ 16 := by
        rcases hcase with hlt | h16
        · exact absurd hlt (not_lt.mpr hslow)
        · exact h16
      have hval : nlargestPairs n (df.groupMaxByLocation li mi).length
          ((df.groupMaxByLocation li mi).filterMap
            (fun p => p.2.map (fun v => (p.1, v)))) =
          (seriesSortDesc ((df.groupMaxByLocation li mi).filterMap
            (fun p => p.2.map (fun v => (p.1, v))))).take n.toNat := by
        unfold nlargestPairs
        rw [if_neg (by omega), if_pos hslow]
      rw [hval] at hok
      obtain ⟨hpw, hperm⟩ := seriesSortDesc_small h16 (cand_pairwise df li mi)
      refine ⟨_, hok, ?_, ?_, ?_⟩
      · exact List.Pairwise.sublist (List.take_sublist _ _) hpw
      · rw [List.length_take, hperm.length_eq]
      · intro pr hpr
        exact mem_cand_spec df li mi pr
          (hperm.mem_iff.mp (List.take_subset _ _ hpr))
    · have hval : nlargestPairs n (df.groupMaxByLocation li mi).length
          ((df.groupMaxByLocation li mi).filterMap
            (fun p => p.2.map (fun v => (p.1, v)))) =
          (sortBy (fun p q => Val.lt q.2 p.2)
            ((df.groupMaxByLocation li mi).filterMap
              (fun p => p.2.map (fun v => (p.1, v))))).take n.toNat := by
        unfold nlargestPairs
        rw [if_neg (by omega), if_neg hslow]
      rw [hval] at hok
      have hsorted := sortBy_pairwise pair_htr pair_htie (cand_pairwise df li mi)
      refine ⟨_, hok, ?_, ?_, ?_⟩
      · refine List.Pairwise.sublist (List.take_sublist _ _) (hsorted.imp ?_)
        intro a b hab
        rcases hab with hlt | ⟨h1, h2, hq⟩
        · exact Or.inl hlt
        · exact Or.inr ⟨Val.lt_connex h2 h1, hq⟩
      · rw [List.length_take, (sortBy_perm _ _).length_eq]
      · intro pr hpr
        exact mem_cand_spec df li mi pr
          ((sortBy_perm _ _).mem_iff.mp (List.take_subset _ _ hpr))

def dfTop : Df :=
  { columns := ["location", "total_cases"],
    rows := [[some (Val.str "B"), some (Val.int 5)],
             [some (Val.str "A"), some (Val.int 5)]] }

def locNames17 : List String :=
  ["a", "b", "c", "d", "e", "f", "g", "h", "i",
   "j", "k", "l", "m", "n", "o", "p", "q"]

def dfTop17 : Df :=
  { columns := ["location", "total_cases"],
    rows := locNames17.map (fun s => [some (Val.str s), some (Val.int 5)]) }

/-- The location order `nlargest(17)` actually returns for the 17 tied
locations of `dfTop17` (the slow path's quicksort scramble). -/
def scrambledNames17 : List String :=
  ["a", "j", "p", "o", "n", "m", "l", "k", "i",
   "b", "h", "g", "f", "e", "d", "c", "q"]

/-- C3 counterexample: `n = 0` (or negative) returns an empty ok result
instead of failing with an `InvalidArgumentError`; with locations B
(first encountered) and A tied at 5, the top-1 result is A — `groupby`
sorts its keys, so the tie goes to the alphabetically smaller location,
not the first-encountered one; and with 17 locations tied at 5 and
`n = 17`, `nlargest`'s slow path re-sorts with the unstable quicksort and
returns the tie neither in first-encountered nor in alphabetical order. -/
theorem highestBy_zero_and_tie :
    dfTop.highest_case_countries 0 = .ok [] ∧
    dfTop.highest_case_countries (-3) = .ok [] ∧
    dfTop.highest_case_countries 1 = .ok [(Val.str "A", Val.int 5)] ∧
    dfTop17.highest_case_countries 17 =
      .ok (scrambledNames17.map (fun s => (Val.str s, Val.int 5))) ∧
    scrambledNames17 ≠ locNames17 := by
  refine ⟨rfl, rfl, rfl, rfl, by decide⟩

theorem highestBy_spec_witness :
    (dfTop.highest_case_countries 1 = dfTop.highestBy "total_cases" 1 ∧
     dfTop.highest_death_countries 1 = dfTop.highestBy "total_deaths" 1 ∧
     dfTop.highest_vaccination_countries 1 = dfTop.highestBy "total_vaccinations" 1) ∧
    ((1 : Int) ≤ 0 → dfTop.highestBy "total_cases" 1 = .ok []) ∧
    ∃ out, dfTop.highestBy "total_cases" 1 = .ok out ∧
      out.Pairwise TopOrder ∧
      out.length = min (1 : Int).toNat
        ((dfTop.groupMaxByLocation 0 1).filterMap
          (fun p => p.2.map (fun v => (p.1, v)))).length ∧
      ∀ pr ∈ out,
        seriesMax ((dfTop.rows.filter (fun r => cellAt r 0 = some pr.1)).map
          (fun r => cellAt r 1)) = some pr.2 ∧
        ∃ r ∈ dfTop.rows, cellAt r 0 = some pr.1 := by
  have h := highestBy_spec dfTop "total_cases" 1 0 1 rfl rfl
  exact ⟨h.1, h.2.1, h.2.2 (by decide) (Or.inl (by decide))⟩

end Covid
